import Mathlib

/-!
Shallow embedding of the N-dimensional Minesweeper implementation in
`mines.py`, together with proofs about its behaviour.

Modelling conventions:
* A board cell is either the mine marker `"."` or a nonnegative integer;
  this is the inductive type `Cell`.
* The nested Python lists that hold the board and the hidden mask are the
  inductive type `Grid`: a `vec` of leaves for a 1-dimensional board and a
  `nest` of sub-grids otherwise, exactly following how `create_game_0`
  builds them.
* Python list indexing is fallible and supports negative wrap-around
  indexing; it is modelled by `pyIdx`/`pyGet`/`pySet`, returning `none`
  where Python raises `IndexError`.
* Functions that can hit a Python runtime error are `Option`-valued
  (`get_val`, `set_val`, `update_pos`, `create_game_0`, `new_game_nd`).
* `dig_nd` mutates the game dictionary and recurses through neighbours;
  it is modelled as a state-passing function with an explicit fuel
  argument bounding the recursion depth.  Fuel `0` returns the game
  unchanged; every run of the Python function is reproduced by any
  sufficiently large fuel.  Where `dig_nd` indexes the grids, Python would
  raise on a failed lookup before mutating anything; the embedding uses
  defaults chosen so that a failed lookup leaves the game unchanged.
* Python `set` objects (neighbour sets) are modelled as duplicate-free
  lists built with `List.insert`, which models `set.add`.
-/

inductive Cell : Type where
  | mine : Cell
  | num : Nat → Cell
deriving DecidableEq, Repr

inductive GameState : Type where
  | ongoing : GameState
  | defeat : GameState
  | victory : GameState
deriving DecidableEq, Repr

inductive Grid (α : Type) : Type where
  | vec : List α → Grid α
  | nest : List (Grid α) → Grid α

structure Game : Type where
  dimensions : List Nat
  board : Grid Cell
  hidden : Grid Bool
  state : GameState
  squares_left : Int

/-- Python list indexing: maps an index `i` on a list of length `n` to the
actual position, wrapping negative indices, and failing (`none`, modelling
`IndexError`) when `i` is outside `[-n, n-1]`. -/
def pyIdx (n : Nat) (i : Int) : Option Nat :=
  if 0 ≤ i ∧ i < (n : Int) then some i.toNat
  else if -(n : Int) ≤ i ∧ i < 0 then some ((n : Int) + i).toNat
  else none

/-- Python `l[i]`. -/
def pyGet {α : Type} (l : List α) (i : Int) : Option α :=
  (pyIdx l.length i).bind (fun j => l.get? j)

/-- Python `l[i] = v`. -/
def pySet {α : Type} (l : List α) (i : Int) (v : α) : Option (List α) :=
  (pyIdx l.length i).map (fun j => l.set j v)

/-- Embedding of `get_val(board, coords)`: recursive descent into the
nested grid, one axis per coordinate. -/
def get_val {α : Type} : Grid α → List Int → Option α
  | Grid.vec board, [i] => pyGet board i
  | Grid.nest board, i :: j :: rest =>
      (pyGet board i).bind (fun sub => get_val sub (j :: rest))
  | _, _ => none

/-- Embedding of `set_val(board, coords, val)` as a function returning the
updated grid. -/
def set_val {α : Type} : Grid α → List Int → α → Option (Grid α)
  | Grid.vec board, [i], v => (pySet board i v).map Grid.vec
  | Grid.nest board, i :: j :: rest, v => do
      let sub ← pyGet board i
      let sub' ← set_val sub (j :: rest) v
      (pySet board i sub').map Grid.nest
  | _, _, _ => none

/-- Python `cell + val`: adding an integer to a cell fails (`TypeError`)
on the mine marker `"."`. -/
def cellAdd : Cell → Nat → Option Cell
  | Cell.num n, v => some (Cell.num (n + v))
  | Cell.mine, _ => none

/-- Embedding of `update_pos(board, coords, val)`: adds `val` to the value
stored at `coords`. -/
def update_pos : Grid Cell → List Int → Nat → Option (Grid Cell)
  | Grid.vec board, [i], v => do
      let c ← pyGet board i
      let c' ← cellAdd c v
      (pySet board i c').map Grid.vec
  | Grid.nest board, i :: j :: rest, v => do
      let sub ← pyGet board i
      let sub' ← update_pos sub (j :: rest) v
      (pySet board i sub').map Grid.nest
  | _, _, _ => none

/-- One axis step of `get_neighors_nd`: add to the accumulator `s` the
candidates `neighbor + (loc-1,)`, `neighbor + (loc+1,)`, `neighbor + (loc,)`,
each guarded by the bounds checks of the source. -/
def addCandidates (d : Nat) (loc : Int) (neighbor : List Int)
    (s : List (List Int)) : List (List Int) :=
  let s1 := if 1 ≤ loc then List.insert (neighbor ++ [loc - 1]) s else s
  let s2 := if loc ≤ (d : Int) - 2 then List.insert (neighbor ++ [loc + 1]) s1 else s1
  List.insert (neighbor ++ [loc]) s2

/-- The `for index in range(1, len(location))` loop of `get_neighors_nd`:
extend every accumulated neighbour by the candidates of each further axis. -/
def extendAxes : List (Nat × Int) → List (List Int) → List (List Int)
  | [], neighbors => neighbors
  | (d, loc) :: rest, neighbors =>
      extendAxes rest
        (neighbors.foldl (fun nn nb => addCandidates d loc nb nn) [])

/-- Embedding of `get_neighors_nd(dimensions, location)`.  The Python set
is modelled as a duplicate-free list. -/
def get_neighors_nd (dimensions : List Nat) (location : List Int) :
    List (List Int) :=
  extendAxes ((dimensions.drop 1).zip (location.drop 1))
    (addCandidates (dimensions.headD 0) (location.headD 0) [] [])

/-- The `total = total * dim` loop of `create_game_0`. -/
def listProd (dims : List Nat) : Nat :=
  dims.foldl (fun total dim => total * dim) 1

/-- Embedding of `create_game_0(dimensions, bombs)`: a board of zeros with
the mine marker at bomb locations, an all-`True` hidden mask, state
`ongoing`, and `squares_left = total - len(bombs)`.  An empty dimensions
list makes the Python function raise `IndexError` (`none` here). -/
def create_game_0 : List Nat → List (List Int) → Option Game
  | [], _ => none
  | [d], bombs => do
      let board ← bombs.foldlM
        (fun b bomb => pySet b (bomb.headD 0) Cell.mine)
        (List.replicate d (Cell.num 0))
      pure { dimensions := [d]
             board := Grid.vec board
             hidden := Grid.vec (List.replicate d true)
             state := GameState.ongoing
             squares_left := (listProd [d] : Int) - bombs.length }
  | d :: d2 :: ds, bombs => do
      let subs ← (List.range d).mapM (fun (i : Nat) =>
        create_game_0 (d2 :: ds)
          ((bombs.filter (fun bomb => bomb.headD (-1) = (i : Int))).map
            (fun bomb => bomb.drop 1)))
      pure { dimensions := d :: d2 :: ds
             board := Grid.nest (subs.map Game.board)
             hidden := Grid.nest (subs.map Game.hidden)
             state := GameState.ongoing
             squares_left := (listProd (d :: d2 :: ds) : Int) - bombs.length }

/-- Embedding of `update_bombs_nd(board, bombs, dimensions)`: for every
bomb, add 1 at every neighbour of the bomb that is not itself a bomb. -/
def update_bombs_nd (board : Grid Cell) (bombs : List (List Int))
    (dimensions : List Nat) : Option (Grid Cell) :=
  bombs.foldlM
    (fun b bomb =>
      (get_neighors_nd dimensions bomb).foldlM
        (fun bb neighbor =>
          if neighbor ∈ bombs then pure bb else update_pos bb neighbor 1)
        b)
    board

/-- Embedding of `new_game_nd(dimensions, bombs)`. -/
def new_game_nd (dimensions : List Nat) (bombs : List (List Int)) :
    Option Game := do
  let game ← create_game_0 dimensions bombs
  let board ← update_bombs_nd game.board bombs dimensions
  pure { game with board := board }

/-- Embedding of `new_game_2d(num_rows, num_cols, bombs)`. -/
def new_game_2d (num_rows num_cols : Nat) (bombs : List (List Int)) :
    Option Game :=
  new_game_nd [num_rows, num_cols] bombs

/-- Embedding of `dig_nd(game, coordinates)`, with a fuel argument
bounding the recursion depth.  The returned pair is the mutated game and
the number of squares revealed. -/
def dig_nd : Nat → Game → List Int → Game × Nat
  | 0, game, _ => (game, 0)
  | fuel + 1, game, coordinates =>
    if game.state = GameState.defeat ∨ game.state = GameState.victory then
      (game, 0)
    else if ((get_val game.hidden coordinates).getD false) = false then
      (game, 0)
    else
      let game1 : Game :=
        { game with hidden := (set_val game.hidden coordinates false).getD game.hidden }
      let game2 : Game :=
        if (get_val game1.board coordinates).getD Cell.mine ≠ Cell.mine then
          { game1 with squares_left := game1.squares_left - 1 }
        else game1
      if (get_val game2.board coordinates).getD Cell.mine = Cell.mine then
        ({ game2 with state := GameState.defeat }, 1)
      else if game2.squares_left = 0 then
        ({ game2 with state := GameState.victory }, 1)
      else if (get_val game2.board coordinates).getD Cell.mine = Cell.num 0 then
        (get_neighors_nd game2.dimensions coordinates).foldl
          (fun acc neighbor =>
            let r := dig_nd fuel acc.1 neighbor
            (r.1, acc.2 + r.2))
          (game2, 1)
      else
        (game2, 1)

/-- Embedding of `dig_2d(game, row, col)`. -/
def dig_2d (fuel : Nat) (game : Game) (row col : Int) : Game × Nat :=
  dig_nd fuel game [row, col]

/-- The character of a decimal digit. -/
def digitChar (n : Nat) : Char := Char.ofNat (48 + n)

/-- Decimal digit string of a natural number, modelling Python `str(n)`
for nonnegative `n`. -/
def natDecimal (n : Nat) : List Char :=
  if _hten : n < 10 then [digitChar n]
  else natDecimal (n / 10) ++ [digitChar (n % 10)]
decreasing_by
  exact Nat.div_lt_self (Nat.lt_of_lt_of_le (by decide) (Nat.le_of_not_lt _hten)) (by decide)

/-- Python `str(val)` on a cell value: `"."` for the mine marker, the
decimal representation for a count. -/
def cellStr : Cell → String
  | Cell.mine => "."
  | Cell.num n => String.mk (natDecimal n)

/-- Python `game["board"][index]` on the nested grid (meaningful on a
`nest` grid; render only uses it on well-shaped games). -/
def gridChild {α : Type} (g : Grid α) (i : Nat) : Grid α :=
  match g with
  | Grid.nest gs => gs.getD i (Grid.nest [])
  | Grid.vec _ => Grid.nest []

/-- Embedding of `render_nd(game, xray)`.  The recursion follows the
source: the relevant fields of the game dictionary (`dimensions`,
`board`, `hidden`) are passed explicitly, since the sub-dictionary built
by the source carries exactly those (its `state` field is unused). -/
def render_nd : List Nat → Grid Cell → Grid Bool → Bool → Grid String
  | [d], board, hidden, xray =>
      Grid.vec ((List.range d).map (fun (coord : Nat) =>
        if ((get_val hidden [(coord : Int)]).getD false) = true ∧ xray = false then
          "_"
        else if (get_val board [(coord : Int)]).getD (Cell.num 0) = Cell.num 0 then
          " "
        else
          cellStr ((get_val board [(coord : Int)]).getD (Cell.num 0))))
  | d :: d2 :: ds, board, hidden, xray =>
      Grid.nest ((List.range d).map (fun index =>
        render_nd (d2 :: ds) (gridChild board index) (gridChild hidden index) xray))
  | [], _, _, _ => Grid.nest []

/-- Embedding of `render_2d_locations(game, xray)`. -/
def render_2d_locations (game : Game) (xray : Bool) : Grid String :=
  render_nd game.dimensions game.board game.hidden xray

/-- Predicate for a (cell, hidden-flag) pair: the cell is hidden and not
a mine. -/
def hmPred : Cell × Bool → Bool :=
  fun p => p.2 && !(decide (p.1 = Cell.mine))

mutual

/-- Number of hidden non-mine cells, counted over the parallel structure
of a board grid and a hidden grid. -/
def hiddenNonMine : Grid Cell → Grid Bool → Nat
  | Grid.vec bs, Grid.vec hs => (bs.zip hs).countP hmPred
  | Grid.nest bs, Grid.nest hs => hiddenNonMineList bs hs
  | _, _ => 0

/-- Sum of `hiddenNonMine` over parallel lists of sub-grids. -/
def hiddenNonMineList : List (Grid Cell) → List (Grid Bool) → Nat
  | b :: bs, h :: hs => hiddenNonMine b h + hiddenNonMineList bs hs
  | _, _ => 0

end

/-- Run a sequence of digs (each with its own fuel) from a game state. -/
def runDigs (g : Game) (digs : List (Nat × List Int)) : Game :=
  digs.foldl (fun g d => (dig_nd d.1 g d.2).1) g

/-- A coordinate is valid for the given dimensions when it has one index
per axis and each index lies in `[0, dim_i - 1]`. -/
def validCoord (dims : List Nat) (c : List Int) : Bool :=
  dims.length == c.length &&
    (dims.zip c).all (fun p => 0 ≤ p.2 && p.2 < (p.1 : Int))

/-- Chebyshev adjacency: same number of axes and the indices differ by at
most 1 on every axis (this includes the coordinate itself). -/
def chebAdj (b c : List Int) : Bool :=
  b.length == c.length && (b.zip c).all (fun p => (p.1 - p.2).natAbs ≤ 1)

/-- Number of mines among the true geometric neighbours of `c`: mines
adjacent to `c` but different from it. -/
def mineNeighborCount (bombs : List (List Int)) (c : List Int) : Nat :=
  bombs.countP (fun b => decide (b ≠ c) && chebAdj b c)

/-- Structural well-shapedness of a grid with respect to a dimensions
list. -/
inductive HasShape {α : Type} : Grid α → List Nat → Prop
  | vec (l : List α) (d : Nat) : l.length = d → HasShape (Grid.vec l) [d]
  | nest (gs : List (Grid α)) (d : Nat) (dims : List Nat) :
      gs.length = d → dims ≠ [] → (∀ g ∈ gs, HasShape g dims) →
      HasShape (Grid.nest gs) (d :: dims)

/-! ### Basic facts about Python list indexing -/

theorem pyIdx_of_nonneg {n : Nat} {i : Int} (h0 : 0 ≤ i) (h1 : i < (n : Int)) :
    pyIdx n i = some i.toNat := by
  unfold pyIdx
  rw [if_pos ⟨h0, h1⟩]

theorem pyIdx_some_lt {n j : Nat} {i : Int} (h : pyIdx n i = some j) : j < n := by
  unfold pyIdx at h
  split_ifs at h with h1 h2 <;> injection h with h <;> omega

theorem pyIdx_none_of_ge {n : Nat} {i : Int} (h0 : (n : Int) ≤ i) : pyIdx n i = none := by
  unfold pyIdx
  rw [if_neg (by omega), if_neg (by omega)]

theorem pyGet_of_nonneg {α : Type} {l : List α} {i : Int} (h0 : 0 ≤ i)
    (h1 : i < (l.length : Int)) : pyGet l i = l.get? i.toNat := by
  unfold pyGet
  rw [pyIdx_of_nonneg h0 h1]
  rfl

theorem pySet_of_pyIdx {α : Type} {l : List α} {i : Int} {j : Nat} {v : α}
    (h : pyIdx l.length i = some j) : pySet l i v = some (l.set j v) := by
  unfold pySet
  rw [h]
  rfl

theorem pyGet_of_pyIdx {α : Type} {l : List α} {i : Int} {j : Nat}
    (h : pyIdx l.length i = some j) : pyGet l i = l.get? j := by
  unfold pyGet
  rw [h]
  rfl

theorem pyGet_none_of_ge {α : Type} {l : List α} {i : Int}
    (h0 : (l.length : Int) ≤ i) : pyGet l i = none := by
  unfold pyGet
  rw [pyIdx_none_of_ge h0]
  rfl

theorem pySet_none_of_ge {α : Type} {l : List α} {i : Int} {v : α}
    (h0 : (l.length : Int) ≤ i) : pySet l i v = none := by
  unfold pySet
  rw [pyIdx_none_of_ge h0]
  rfl

/-! ### Characterisation of the neighbour set -/

/-- The per-axis candidate relation of `get_neighors_nd`: with extents `d`
and origin index `loc`, index `x` is produced for this axis. -/
def candR (d : Nat) (loc x : Int) : Prop :=
  (1 ≤ loc ∧ x = loc - 1) ∨ (loc ≤ (d : Int) - 2 ∧ x = loc + 1) ∨ x = loc

theorem mem_addCandidates {d : Nat} {loc : Int} {nb c : List Int}
    {s : List (List Int)} :
    c ∈ addCandidates d loc nb s ↔
      ((1 ≤ loc ∧ c = nb ++ [loc - 1]) ∨ (loc ≤ (d : Int) - 2 ∧ c = nb ++ [loc + 1]) ∨
        c = nb ++ [loc]) ∨ c ∈ s := by
  unfold addCandidates
  by_cases h1 : 1 ≤ loc <;> by_cases h2 : loc ≤ (d : Int) - 2 <;>
    simp only [h1, h2, if_true, if_false, List.mem_insert_iff, true_and, false_and,
      false_or] <;> tauto

theorem mem_addCandidates' {d : Nat} {loc : Int} {nb c : List Int}
    {s : List (List Int)} :
    c ∈ addCandidates d loc nb s ↔
      (∃ x, candR d loc x ∧ c = nb ++ [x]) ∨ c ∈ s := by
  rw [mem_addCandidates]
  constructor
  · rintro ((⟨h, rfl⟩ | ⟨h, rfl⟩ | rfl) | h)
    · exact Or.inl ⟨loc - 1, Or.inl ⟨h, rfl⟩, rfl⟩
    · exact Or.inl ⟨loc + 1, Or.inr (Or.inl ⟨h, rfl⟩), rfl⟩
    · exact Or.inl ⟨loc, Or.inr (Or.inr rfl), rfl⟩
    · exact Or.inr h
  · rintro (⟨x, (⟨h, rfl⟩ | ⟨h, rfl⟩ | rfl), rfl⟩ | h)
    · exact Or.inl (Or.inl ⟨h, rfl⟩)
    · exact Or.inl (Or.inr (Or.inl ⟨h, rfl⟩))
    · exact Or.inl (Or.inr (Or.inr rfl))
    · exact Or.inr h

theorem nodup_insert_beq {α : Type} [BEq α] [LawfulBEq α] {a : α} {l : List α}
    (h : l.Nodup) : (l.insert a).Nodup := by
  by_cases hm : a ∈ l
  · rw [List.insert_of_mem hm]
    exact h
  · rw [List.insert_of_not_mem hm]
    exact List.nodup_cons.2 ⟨hm, h⟩

theorem nodup_addCandidates {d : Nat} {loc : Int} {nb : List Int}
    {s : List (List Int)} (h : s.Nodup) : (addCandidates d loc nb s).Nodup := by
  simp only [addCandidates]
  split_ifs <;>
    first
      | exact nodup_insert_beq (nodup_insert_beq (nodup_insert_beq h))
      | exact nodup_insert_beq (nodup_insert_beq h)
      | exact nodup_insert_beq h

theorem mem_foldl_addCandidates {d : Nat} {loc : Int} {l init : List (List Int)}
    {c : List Int} :
    c ∈ l.foldl (fun nn nb => addCandidates d loc nb nn) init ↔
      c ∈ init ∨ ∃ nb ∈ l, ∃ x, candR d loc x ∧ c = nb ++ [x] := by
  induction l generalizing init with
  | nil => simp
  | cons hd tl ih =>
    rw [List.foldl_cons, ih, mem_addCandidates']
    simp only [List.mem_cons]
    constructor
    · rintro ((⟨x, hx, rfl⟩ | h) | ⟨nb, hnb, x, hx, rfl⟩)
      · exact Or.inr ⟨hd, Or.inl rfl, x, hx, rfl⟩
      · exact Or.inl h
      · exact Or.inr ⟨nb, Or.inr hnb, x, hx, rfl⟩
    · rintro (h | ⟨nb, (rfl | hnb), x, hx, rfl⟩)
      · exact Or.inl (Or.inr h)
      · exact Or.inl (Or.inl ⟨x, hx, rfl⟩)
      · exact Or.inr ⟨nb, hnb, x, hx, rfl⟩

theorem nodup_foldl_addCandidates {d : Nat} {loc : Int} {l init : List (List Int)}
    (h : init.Nodup) :
    (l.foldl (fun nn nb => addCandidates d loc nb nn) init).Nodup := by
  induction l generalizing init with
  | nil => exact h
  | cons hd tl ih => exact ih (nodup_addCandidates h)

theorem mem_extendAxes {axes : List (Nat × Int)} {s : List (List Int)}
    {c : List Int} :
    c ∈ extendAxes axes s ↔
      ∃ p ∈ s, ∃ q, List.Forall₂ (fun pr x => candR pr.1 pr.2 x) axes q ∧
        c = p ++ q := by
  induction axes generalizing s with
  | nil =>
    simp only [extendAxes, List.forall₂_nil_left_iff]
    constructor
    · intro h
      exact ⟨c, h, [], rfl, by simp⟩
    · rintro ⟨p, hp, q, rfl, rfl⟩
      simpa using hp
  | cons hd tl ih =>
    obtain ⟨d, loc⟩ := hd
    rw [extendAxes, ih]
    constructor
    · rintro ⟨p, hp, q, hq, rfl⟩
      rw [mem_foldl_addCandidates] at hp
      rcases hp with h | ⟨nb, hnb, x, hx, rfl⟩
      · exact absurd h (List.not_mem_nil p)
      · exact ⟨nb, hnb, x :: q, List.Forall₂.cons hx hq, by simp⟩
    · rintro ⟨p, hp, q, hq, rfl⟩
      cases hq with
      | cons hx hq' =>
        rename_i x q'
        exact ⟨p ++ [x], by rw [mem_foldl_addCandidates]; exact Or.inr ⟨p, hp, x, hx, rfl⟩,
          q', hq', by simp⟩

theorem nodup_extendAxes {axes : List (Nat × Int)} {s : List (List Int)}
    (h : s.Nodup) : (extendAxes axes s).Nodup := by
  induction axes generalizing s with
  | nil => exact h
  | cons hd tl ih =>
    obtain ⟨d, loc⟩ := hd
    exact ih (nodup_foldl_addCandidates List.nodup_nil)

theorem nodup_get_neighors_nd {dims : List Nat} {loc : List Int} :
    (get_neighors_nd dims loc).Nodup :=
  nodup_extendAxes (nodup_addCandidates List.nodup_nil)

theorem mem_get_neighors_nd {d0 : Nat} {ds : List Nat} {l0 : Int} {ls c : List Int} :
    c ∈ get_neighors_nd (d0 :: ds) (l0 :: ls) ↔
      List.Forall₂ (fun pr x => candR pr.1 pr.2 x) ((d0 :: ds).zip (l0 :: ls)) c := by
  unfold get_neighors_nd
  rw [mem_extendAxes]
  simp only [List.headD_cons, List.drop_one, List.tail_cons, mem_addCandidates',
    List.not_mem_nil, or_false, List.zip_cons_cons, List.nil_append]
  constructor
  · rintro ⟨p, ⟨x, hx, rfl⟩, q, hq, rfl⟩
    have hres : List.Forall₂ (fun pr x => candR pr.1 pr.2 x) ((d0, l0) :: ds.zip ls)
        (x :: q) := List.Forall₂.cons hx hq
    simpa using hres
  · intro h
    cases h with
    | cons hx hq =>
      rename_i x q
      exact ⟨[x], ⟨x, hx, rfl⟩, q, hq, by simp⟩

theorem validCoord_iff {dims : List Nat} {c : List Int} :
    validCoord dims c = true ↔
      List.Forall₂ (fun (d : Nat) (x : Int) => 0 ≤ x ∧ x < (d : Int)) dims c := by
  rw [List.forall₂_iff_zip]
  unfold validCoord
  rw [Bool.and_eq_true, beq_iff_eq, List.all_eq_true]
  simp only [Bool.and_eq_true, decide_eq_true_eq]
  constructor
  · rintro ⟨hlen, hall⟩
    refine ⟨hlen, ?_⟩
    intro a b hab
    exact hall (a, b) hab
  · rintro ⟨hlen, hall⟩
    refine ⟨hlen, ?_⟩
    rintro ⟨a, b⟩ hab
    exact hall hab

theorem chebAdj_iff {b c : List Int} :
    chebAdj b c = true ↔ List.Forall₂ (fun x y => (x - y).natAbs ≤ 1) b c := by
  rw [List.forall₂_iff_zip]
  unfold chebAdj
  rw [Bool.and_eq_true, beq_iff_eq, List.all_eq_true]
  simp only [decide_eq_true_eq]
  constructor
  · rintro ⟨hlen, hall⟩
    refine ⟨hlen, ?_⟩
    intro a b hab
    exact hall (a, b) hab
  · rintro ⟨hlen, hall⟩
    refine ⟨hlen, ?_⟩
    rintro ⟨a, b⟩ hab
    exact hall hab

theorem candR_iff_spec {d : Nat} {loc x : Int} (h0 : 0 ≤ loc) (h1 : loc < (d : Int)) :
    candR d loc x ↔ ((x = loc - 1 ∨ x = loc ∨ x = loc + 1) ∧ 0 ≤ x ∧ x < (d : Int)) := by
  unfold candR
  omega

theorem candR_iff_natAbs {d : Nat} {loc x : Int} (h0 : 0 ≤ loc) (h1 : loc < (d : Int))
    (hx0 : 0 ≤ x) (hx1 : x < (d : Int)) : candR d loc x ↔ (loc - x).natAbs ≤ 1 := by
  unfold candR
  omega

theorem candR_self (d : Nat) (loc : Int) : candR d loc loc :=
  Or.inr (Or.inr rfl)

theorem forall₂_candR_iff_spec {dims : List Nat} {loc c : List Int}
    (hv : List.Forall₂ (fun (d : Nat) (x : Int) => 0 ≤ x ∧ x < (d : Int)) dims loc) :
    List.Forall₂ (fun pr x => candR pr.1 pr.2 x) (dims.zip loc) c ↔
      List.Forall₂
        (fun pr x => (x = pr.2 - 1 ∨ x = pr.2 ∨ x = pr.2 + 1) ∧ 0 ≤ x ∧ x < (pr.1 : Int))
        (dims.zip loc) c := by
  induction hv generalizing c with
  | nil => simp
  | cons h1 h2 ih =>
    cases c with
    | nil =>
      constructor <;> intro h <;> cases h
    | cons x c' =>
      rw [List.zip_cons_cons, List.forall₂_cons, List.forall₂_cons,
        candR_iff_spec h1.1 h1.2, ih]

theorem forall₂_candR_iff_cheb {dims : List Nat} {loc c : List Int}
    (hv : List.Forall₂ (fun (d : Nat) (x : Int) => 0 ≤ x ∧ x < (d : Int)) dims loc)
    (hvc : List.Forall₂ (fun (d : Nat) (x : Int) => 0 ≤ x ∧ x < (d : Int)) dims c) :
    List.Forall₂ (fun pr x => candR pr.1 pr.2 x) (dims.zip loc) c ↔
      List.Forall₂ (fun x y => (x - y).natAbs ≤ 1) loc c := by
  induction hv generalizing c with
  | nil =>
    cases hvc
    simp
  | cons h1 h2 ih =>
    cases hvc with
    | cons hx1 hx2 =>
      rw [List.zip_cons_cons, List.forall₂_cons, List.forall₂_cons,
        candR_iff_natAbs h1.1 h1.2 hx1.1 hx1.2, ih hx2]

theorem forall₂_candR_valid {dims : List Nat} {loc c : List Int}
    (hv : List.Forall₂ (fun (d : Nat) (x : Int) => 0 ≤ x ∧ x < (d : Int)) dims loc)
    (hc : List.Forall₂ (fun pr x => candR pr.1 pr.2 x) (dims.zip loc) c) :
    List.Forall₂ (fun (d : Nat) (x : Int) => 0 ≤ x ∧ x < (d : Int)) dims c := by
  induction hv generalizing c with
  | nil =>
    cases hc
    exact List.Forall₂.nil
  | cons h1 h2 ih =>
    rw [List.zip_cons_cons] at hc
    cases hc with
    | cons hx hrest =>
      exact List.Forall₂.cons ((candR_iff_spec h1.1 h1.2).1 hx).2 (ih hrest)

theorem forall₂_candR_self {dims : List Nat} {loc : List Int}
    (hlen : dims.length = loc.length) :
    List.Forall₂ (fun pr x => candR pr.1 pr.2 x) (dims.zip loc) loc := by
  induction dims generalizing loc with
  | nil =>
    cases loc with
    | nil => exact List.Forall₂.nil
    | cons l ls => simp at hlen
  | cons d ds ih =>
    cases loc with
    | nil => simp at hlen
    | cons l ls =>
      rw [List.zip_cons_cons]
      exact List.Forall₂.cons (candR_self d l) (ih (by simpa using hlen))

/-! ### List helpers for set and count -/

theorem get?_set_self {α : Type} {l : List α} {j : Nat} {b : α} (h : j < l.length) :
    (l.set j b).get? j = some b := by
  induction l generalizing j with
  | nil => simp at h
  | cons hd tl ih =>
    cases j with
    | zero => rfl
    | succ j => exact ih (by simpa using h)

theorem get?_set_other {α : Type} {l : List α} {j k : Nat} {b : α} (h : j ≠ k) :
    (l.set j b).get? k = l.get? k := by
  induction l generalizing j k with
  | nil => rfl
  | cons hd tl ih =>
    cases j with
    | zero =>
      cases k with
      | zero => exact absurd rfl h
      | succ k => rfl
    | succ j =>
      cases k with
      | zero => rfl
      | succ k => exact ih (fun hh => h (by rw [hh]))

theorem countP_set {α : Type} (p : α → Bool) (l : List α) (j : Nat) (a b : α)
    (hj : l.get? j = some a) :
    (l.set j b).countP p + (if p a then 1 else 0) =
      l.countP p + (if p b then 1 else 0) := by
  induction l generalizing j with
  | nil => simp at hj
  | cons hd tl ih =>
    cases j with
    | zero =>
      injection hj with hj
      subst hj
      simp only [List.set_cons_zero, List.countP_cons]
      split_ifs <;> omega
    | succ j =>
      simp only [List.set_cons_succ, List.countP_cons]
      have := ih j (by simpa using hj)
      split_ifs at * <;> omega

theorem get?_mem_of_some {α : Type} {l : List α} {j : Nat} {a : α}
    (h : l.get? j = some a) : a ∈ l := by
  induction l generalizing j with
  | nil => simp at h
  | cons hd tl ih =>
    cases j with
    | zero =>
      injection h with h
      exact h ▸ List.mem_cons_self hd tl
    | succ j => exact List.mem_cons_of_mem hd (ih h)

theorem mem_set_of_mem {α : Type} {l : List α} {j : Nat} {b y : α}
    (h : y ∈ l.set j b) : y = b ∨ y ∈ l := by
  induction l generalizing j with
  | nil => simp at h
  | cons hd tl ih =>
    cases j with
    | zero =>
      rcases List.mem_cons.1 h with h | h
      · exact Or.inl h
      · exact Or.inr (List.mem_cons_of_mem hd h)
    | succ j =>
      rcases List.mem_cons.1 h with h | h
      · exact Or.inr (h ▸ List.mem_cons_self hd tl)
      · rcases ih h with h | h
        · exact Or.inl h
        · exact Or.inr (List.mem_cons_of_mem hd h)

theorem get?_some_of_lt {α : Type} {l : List α} {j : Nat} (h : j < l.length) :
    ∃ a, l.get? j = some a := by
  induction l generalizing j with
  | nil => simp at h
  | cons hd tl ih =>
    cases j with
    | zero => exact ⟨hd, rfl⟩
    | succ j => exact ih (by simpa using h)

/-! ### Valid coordinates and grid access -/

theorem validCoord_cons_iff {d : Nat} {dims : List Nat} {x : Int} {c : List Int} :
    validCoord (d :: dims) (x :: c) = true ↔
      (0 ≤ x ∧ x < (d : Int)) ∧ validCoord dims c = true := by
  rw [validCoord_iff, validCoord_iff, List.forall₂_cons]

theorem validCoord_nil_left {c : List Int} (h : validCoord [] c = true) : c = [] :=
  List.forall₂_nil_left_iff.1 (validCoord_iff.1 h)

theorem validCoord_nil_right {dims : List Nat} (h : validCoord dims [] = true) :
    dims = [] :=
  List.forall₂_nil_right_iff.1 (validCoord_iff.1 h)

theorem validCoord_cons_ex {d : Nat} {dims : List Nat} {x : List Int}
    (h : validCoord (d :: dims) x = true) :
    ∃ k x', x = k :: x' ∧ 0 ≤ k ∧ k < (d : Int) ∧ validCoord dims x' = true := by
  cases x with
  | nil => exact absurd (validCoord_nil_right h) (by simp)
  | cons k x' =>
    rw [validCoord_cons_iff] at h
    exact ⟨k, x', rfl, h.1.1, h.1.2, h.2⟩

theorem set_val_spec {α : Type} {g : Grid α} {dims : List Nat} {c : List Int} (v : α)
    (hs : HasShape g dims) (hv : validCoord dims c = true) :
    ∃ g', set_val g c v = some g' ∧ HasShape g' dims ∧ get_val g' c = some v ∧
      ∀ x, validCoord dims x = true → x ≠ c → get_val g' x = get_val g x := by
  induction c generalizing g dims with
  | nil =>
    rw [validCoord_nil_right hv] at hs
    cases hs
  | cons i c' ih =>
    cases hs with
    | vec l d hl =>
      rw [validCoord_cons_iff] at hv
      obtain ⟨⟨h0, h1⟩, hv'⟩ := hv
      have hc' : c' = [] := validCoord_nil_left hv'
      subst hc'
      have hidx : pyIdx l.length i = some i.toNat :=
        pyIdx_of_nonneg h0 (by rw [hl]; exact h1)
      have hlt : i.toNat < l.length := pyIdx_some_lt hidx
      refine ⟨Grid.vec (l.set i.toNat v), ?_, ?_, ?_, ?_⟩
      · simp only [set_val]
        rw [pySet_of_pyIdx hidx]
        rfl
      · exact HasShape.vec _ _ (by simpa using hl)
      · simp only [get_val]
        rw [pyGet_of_pyIdx (by simpa using hidx)]
        exact get?_set_self hlt
      · intro x hx hxc
        obtain ⟨k, x', rfl, hk0, hk1, hx'⟩ := validCoord_cons_ex hx
        have hx'nil : x' = [] := validCoord_nil_left hx'
        subst hx'nil
        have hki : k ≠ i := fun hh => hxc (by rw [hh])
        simp only [get_val]
        rw [pyGet_of_pyIdx (by simpa using pyIdx_of_nonneg hk0 (by rw [hl]; exact hk1)),
          pyGet_of_pyIdx (pyIdx_of_nonneg hk0 (by rw [hl]; exact hk1))]
        exact get?_set_other (by omega)
    | nest gs d dims' hlen hne hall =>
      rw [validCoord_cons_iff] at hv
      obtain ⟨⟨h0, h1⟩, hv'⟩ := hv
      have hc'ne : c' ≠ [] := by
        intro h
        exact hne (validCoord_nil_right (h ▸ hv'))
      obtain ⟨j, c'', rfl⟩ : ∃ j c'', c' = j :: c'' := by
        cases c' with
        | nil => exact absurd rfl hc'ne
        | cons a b => exact ⟨a, b, rfl⟩
      have hidx : pyIdx gs.length i = some i.toNat :=
        pyIdx_of_nonneg h0 (by rw [hlen]; exact h1)
      have hlt : i.toNat < gs.length := pyIdx_some_lt hidx
      obtain ⟨sub, hsub⟩ := get?_some_of_lt hlt
      have hsubshape : HasShape sub dims' := hall sub (get?_mem_of_some hsub)
      obtain ⟨sub', hset, hshape', hget', hother⟩ := ih hsubshape hv'
      refine ⟨Grid.nest (gs.set i.toNat sub'), ?_, ?_, ?_, ?_⟩
      · simp only [set_val]
        rw [pyGet_of_pyIdx hidx, hsub, Option.bind_eq_bind, Option.some_bind, hset,
          Option.some_bind, pySet_of_pyIdx hidx]
        rfl
      · refine HasShape.nest _ d dims' (by simpa using hlen) hne ?_
        intro g hg
        rcases mem_set_of_mem hg with rfl | hg
        · exact hshape'
        · exact hall g hg
      · simp only [get_val]
        rw [pyGet_of_pyIdx (by simpa using hidx), get?_set_self hlt, Option.some_bind]
        exact hget'
      · intro x hx hxc
        obtain ⟨k, x', rfl, hk0, hk1, hx'⟩ := validCoord_cons_ex hx
        have hx'ne : x' ≠ [] := by
          intro h
          exact hne (validCoord_nil_right (h ▸ hx'))
        obtain ⟨jx, x'', rfl⟩ : ∃ jx x'', x' = jx :: x'' := by
          cases x' with
          | nil => exact absurd rfl hx'ne
          | cons a b => exact ⟨a, b, rfl⟩
        have hkidx : pyIdx gs.length k = some k.toNat :=
          pyIdx_of_nonneg hk0 (by rw [hlen]; exact hk1)
        by_cases hk : k = i
        · subst hk
          have hxtail : (jx :: x'') ≠ (j :: c'') := by
            intro hh
            exact hxc (by rw [hh])
          simp only [get_val]
          rw [pyGet_of_pyIdx (by simpa using hkidx), pyGet_of_pyIdx hkidx,
            get?_set_self hlt, hsub, Option.some_bind, Option.some_bind]
          exact hother _ hx' hxtail
        · simp only [get_val]
          rw [pyGet_of_pyIdx (by simpa using hkidx), pyGet_of_pyIdx hkidx,
            get?_set_other (by omega)]

/-! ### Counting hidden non-mine cells under updates -/

theorem countP_zip_set_same (l : List Cell) (hs : List Bool) (j : Nat) (a b : Cell)
    (hj : l.get? j = some a) (hab : ∀ h : Bool, hmPred (b, h) = hmPred (a, h)) :
    ((l.set j b).zip hs).countP hmPred = (l.zip hs).countP hmPred := by
  induction l generalizing hs j with
  | nil => rfl
  | cons hd tl ih =>
    cases hs with
    | nil => simp
    | cons hh hhs =>
      cases j with
      | zero =>
        injection hj with hj
        subst hj
        simp only [List.set_cons_zero, List.zip_cons_cons, List.countP_cons, hab hh]
      | succ j =>
        simp only [List.set_cons_succ, List.zip_cons_cons, List.countP_cons,
          ih hhs j (by simpa using hj)]

theorem countP_zip_set_false (bl : List Cell) (hs : List Bool) (j : Nat) (cell : Cell)
    (hj : hs.get? j = some true) (hcell : bl.get? j = some cell) :
    (bl.zip (hs.set j false)).countP hmPred + (if cell = Cell.mine then 0 else 1) =
      (bl.zip hs).countP hmPred := by
  induction bl generalizing hs j with
  | nil => simp at hcell
  | cons b bl' ih =>
    cases hs with
    | nil => simp at hj
    | cons h hs' =>
      cases j with
      | zero =>
        injection hj with hj
        injection hcell with hcell
        subst hj
        subst hcell
        simp only [List.set_cons_zero, List.zip_cons_cons, List.countP_cons]
        by_cases hb : b = Cell.mine <;> simp [hmPred, hb]
      | succ j =>
        simp only [List.set_cons_succ, List.zip_cons_cons, List.countP_cons]
        have := ih hs' j (by simpa using hj) (by simpa using hcell)
        omega

theorem hiddenNonMineList_set (bgs : List (Grid Cell)) (hgs : List (Grid Bool))
    (j : Nat) (bsub : Grid Cell) (hsub hsub' : Grid Bool) (delta : Nat)
    (hb : bgs.get? j = some bsub) (hh : hgs.get? j = some hsub)
    (heq : hiddenNonMine bsub hsub' + delta = hiddenNonMine bsub hsub) :
    hiddenNonMineList bgs (hgs.set j hsub') + delta = hiddenNonMineList bgs hgs := by
  induction bgs generalizing hgs j with
  | nil => simp at hb
  | cons bg bgs' ih =>
    cases hgs with
    | nil => simp at hh
    | cons hg hgs' =>
      cases j with
      | zero =>
        injection hb with hb
        injection hh with hh
        subst hb
        subst hh
        simp only [List.set_cons_zero, hiddenNonMineList]
        omega
      | succ j =>
        simp only [List.set_cons_succ, hiddenNonMineList]
        have := ih hgs' j (by simpa using hb) (by simpa using hh)
        omega

theorem hiddenNonMineList_set_board (bgs : List (Grid Cell)) (hgs : List (Grid Bool))
    (j : Nat) (bsub bsub' : Grid Cell) (dims' : List Nat)
    (hb : bgs.get? j = some bsub)
    (hshapes : ∀ hgm ∈ hgs, HasShape hgm dims')
    (heq : ∀ hsub, HasShape hsub dims' →
      hiddenNonMine bsub' hsub = hiddenNonMine bsub hsub) :
    hiddenNonMineList (bgs.set j bsub') hgs = hiddenNonMineList bgs hgs := by
  induction bgs generalizing hgs j with
  | nil => simp at hb
  | cons bg bgs' ih =>
    cases hgs with
    | nil => cases j <;> rfl
    | cons hg hgs' =>
      cases j with
      | zero =>
        injection hb with hb
        subst hb
        simp only [List.set_cons_zero, hiddenNonMineList]
        rw [heq hg (hshapes hg (List.mem_cons_self hg hgs'))]
      | succ j =>
        simp only [List.set_cons_succ, hiddenNonMineList]
        rw [ih hgs' j (by simpa using hb)
          (fun hgm hm => hshapes hgm (List.mem_cons_of_mem hg hm))]

theorem hasShape_single {α : Type} {g : Grid α} {d : Nat} (h : HasShape g [d]) :
    ∃ l, g = Grid.vec l ∧ l.length = d := by
  cases h
  case vec l hl => exact ⟨l, rfl, hl⟩
  case nest gs hlen hne hall => exact absurd rfl hne

theorem hasShape_cons {α : Type} {g : Grid α} {d : Nat} {dims : List Nat}
    (hne : dims ≠ []) (h : HasShape g (d :: dims)) :
    ∃ gs, g = Grid.nest gs ∧ gs.length = d ∧ ∀ gm ∈ gs, HasShape gm dims := by
  cases h
  case vec l hl => exact absurd rfl hne
  case nest gs hlen hne2 hall => exact ⟨gs, rfl, hlen, hall⟩

theorem update_pos_spec {g : Grid Cell} {dims : List Nat} {c : List Int} {n : Nat}
    (v : Nat) (hs : HasShape g dims) (hv : validCoord dims c = true)
    (hc : get_val g c = some (Cell.num n)) :
    ∃ g', update_pos g c v = some g' ∧ HasShape g' dims ∧
      get_val g' c = some (Cell.num (n + v)) ∧
      (∀ x, validCoord dims x = true → x ≠ c → get_val g' x = get_val g x) ∧
      (∀ hg, HasShape hg dims → hiddenNonMine g' hg = hiddenNonMine g hg) := by
  induction c generalizing g dims with
  | nil =>
    rw [validCoord_nil_right hv] at hs
    cases hs
  | cons i c' ih =>
    cases hs with
    | vec l d hl =>
      rw [validCoord_cons_iff] at hv
      obtain ⟨⟨h0, h1⟩, hv'⟩ := hv
      have hc' : c' = [] := validCoord_nil_left hv'
      subst hc'
      have hidx : pyIdx l.length i = some i.toNat :=
        pyIdx_of_nonneg h0 (by rw [hl]; exact h1)
      have hlt : i.toNat < l.length := pyIdx_some_lt hidx
      simp only [get_val] at hc
      have hget : l.get? i.toNat = some (Cell.num n) := by
        rw [pyGet_of_pyIdx hidx] at hc
        exact hc
      refine ⟨Grid.vec (l.set i.toNat (Cell.num (n + v))), ?_, ?_, ?_, ?_, ?_⟩
      · simp only [update_pos]
        rw [Option.bind_eq_bind, pyGet_of_pyIdx hidx, hget, Option.some_bind]
        simp only [cellAdd]
        rw [Option.some_bind, pySet_of_pyIdx hidx]
        rfl
      · exact HasShape.vec _ _ (by simpa using hl)
      · simp only [get_val]
        rw [pyGet_of_pyIdx (by simpa using hidx)]
        exact get?_set_self hlt
      · intro x hx hxc
        obtain ⟨k, x', rfl, hk0, hk1, hx'⟩ := validCoord_cons_ex hx
        have hx'nil : x' = [] := validCoord_nil_left hx'
        subst hx'nil
        have hki : k ≠ i := fun hh => hxc (by rw [hh])
        simp only [get_val]
        rw [pyGet_of_pyIdx (by simpa using pyIdx_of_nonneg hk0 (by rw [hl]; exact hk1)),
          pyGet_of_pyIdx (pyIdx_of_nonneg hk0 (by rw [hl]; exact hk1))]
        exact get?_set_other (by omega)
      · intro hg hgs
        obtain ⟨hlst, rfl, hhl⟩ := hasShape_single hgs
        simp only [hiddenNonMine]
        exact countP_zip_set_same l hlst i.toNat (Cell.num n) (Cell.num (n + v))
          hget (fun h => rfl)
    | nest gs d dims' hlen hne hall =>
      rw [validCoord_cons_iff] at hv
      obtain ⟨⟨h0, h1⟩, hv'⟩ := hv
      have hc'ne : c' ≠ [] := by
        intro h
        exact hne (validCoord_nil_right (h ▸ hv'))
      obtain ⟨j, c'', rfl⟩ : ∃ j c'', c' = j :: c'' := by
        cases c' with
        | nil => exact absurd rfl hc'ne
        | cons a b => exact ⟨a, b, rfl⟩
      have hidx : pyIdx gs.length i = some i.toNat :=
        pyIdx_of_nonneg h0 (by rw [hlen]; exact h1)
      have hlt : i.toNat < gs.length := pyIdx_some_lt hidx
      obtain ⟨sub, hsub⟩ := get?_some_of_lt hlt
      have hsubshape : HasShape sub dims' := hall sub (get?_mem_of_some hsub)
      simp only [get_val] at hc
      rw [pyGet_of_pyIdx hidx, hsub, Option.some_bind] at hc
      obtain ⟨sub', hupd, hshape', hget', hother, hcount⟩ := ih hsubshape hv' hc
      refine ⟨Grid.nest (gs.set i.toNat sub'), ?_, ?_, ?_, ?_, ?_⟩
      · simp only [update_pos]
        rw [pyGet_of_pyIdx hidx, hsub, Option.bind_eq_bind, Option.some_bind, hupd,
          Option.some_bind, pySet_of_pyIdx hidx]
        rfl
      · refine HasShape.nest _ d dims' (by simpa using hlen) hne ?_
        intro g hg
        rcases mem_set_of_mem hg with rfl | hg
        · exact hshape'
        · exact hall g hg
      · simp only [get_val]
        rw [pyGet_of_pyIdx (by simpa using hidx), get?_set_self hlt, Option.some_bind]
        exact hget'
      · intro x hx hxc
        obtain ⟨k, x', rfl, hk0, hk1, hx'⟩ := validCoord_cons_ex hx
        have hx'ne : x' ≠ [] := by
          intro h
          exact hne (validCoord_nil_right (h ▸ hx'))
        obtain ⟨jx, x'', rfl⟩ : ∃ jx x'', x' = jx :: x'' := by
          cases x' with
          | nil => exact absurd rfl hx'ne
          | cons a b => exact ⟨a, b, rfl⟩
        have hkidx : pyIdx gs.length k = some k.toNat :=
          pyIdx_of_nonneg hk0 (by rw [hlen]; exact hk1)
        by_cases hk : k = i
        · subst hk
          have hxtail : (jx :: x'') ≠ (j :: c'') := by
            intro hh
            exact hxc (by rw [hh])
          simp only [get_val]
          rw [pyGet_of_pyIdx (by simpa using hkidx), pyGet_of_pyIdx hkidx,
            get?_set_self hlt, hsub, Option.some_bind, Option.some_bind]
          exact hother _ hx' hxtail
        · simp only [get_val]
          rw [pyGet_of_pyIdx (by simpa using hkidx), pyGet_of_pyIdx hkidx,
            get?_set_other (by omega)]
      · intro hg hgs
        obtain ⟨hgl, rfl, hhl, hhall⟩ := hasShape_cons hne hgs
        simp only [hiddenNonMine]
        exact hiddenNonMineList_set_board gs hgl i.toNat sub sub' dims' hsub hhall
          (fun hsubm hm => hcount hsubm hm)

/-! ### Grid access unfolding helpers -/

theorem get_val_nil {α : Type} (g : Grid α) : get_val g [] = none := by
  cases g <;> rfl

theorem get_val_vec_cons2 {α : Type} (l : List α) (i j : Int) (rest : List Int) :
    get_val (Grid.vec l) (i :: j :: rest) = none := rfl

theorem get_val_nest_single {α : Type} (gs : List (Grid α)) (i : Int) :
    get_val (Grid.nest gs) [i] = none := rfl

theorem pyGet_some_inv {α : Type} {l : List α} {i : Int} {a : α}
    (h : pyGet l i = some a) :
    ∃ j, pyIdx l.length i = some j ∧ l.get? j = some a := by
  unfold pyGet at h
  cases hidx : pyIdx l.length i with
  | none =>
    rw [hidx] at h
    simp at h
  | some j =>
    rw [hidx] at h
    exact ⟨j, rfl, h⟩

theorem dig_reveal_spec {bg : Grid Cell} {hg : Grid Bool} {dims : List Nat}
    {c : List Int} (hb : HasShape bg dims) (hh : HasShape hg dims)
    (h : get_val hg c = some true) :
    ∃ cell hg', get_val bg c = some cell ∧ set_val hg c false = some hg' ∧
      HasShape hg' dims ∧
      hiddenNonMine bg hg' + (if cell = Cell.mine then 0 else 1) =
        hiddenNonMine bg hg := by
  induction c generalizing bg hg dims with
  | nil =>
    rw [get_val_nil] at h
    exact absurd h (by simp)
  | cons i c' ih =>
    cases c' with
    | nil =>
      cases hh
      case nest hgs d dims' hlen hne hall =>
        exact absurd (get_val_nest_single _ i ▸ h) (by simp)
      case vec hs d hl =>
        obtain ⟨bl, rfl, hbl⟩ := hasShape_single hb
        simp only [get_val] at h ⊢
        obtain ⟨j, hidx, hget⟩ := pyGet_some_inv h
        have hjlt : j < hs.length := pyIdx_some_lt hidx
        have hlen2 : bl.length = hs.length := by rw [hbl, hl]
        have hidxb : pyIdx bl.length i = some j := by rw [hlen2]; exact hidx
        obtain ⟨cell, hcell⟩ := get?_some_of_lt (hlen2 ▸ hjlt)
        refine ⟨cell, Grid.vec (hs.set j false), ?_, ?_, ?_, ?_⟩
        · rw [pyGet_of_pyIdx hidxb]
          exact hcell
        · simp only [set_val]
          rw [pySet_of_pyIdx hidx]
          rfl
        · exact HasShape.vec _ _ (by simpa using hl)
        · simp only [hiddenNonMine]
          exact countP_zip_set_false bl hs j cell hget hcell
    | cons j c'' =>
      cases hh
      case vec hs d hl => exact absurd (get_val_vec_cons2 _ i j c'' ▸ h) (by simp)
      case nest hgs d dims' hlen hne hall =>
        obtain ⟨bgs, rfl, hblen, hball⟩ := hasShape_cons hne hb
        simp only [get_val] at h ⊢
        obtain ⟨hsub, hpg, hrec⟩ := Option.bind_eq_some.1 h
        obtain ⟨j0, hidx, hget⟩ := pyGet_some_inv hpg
        have hj0lt : j0 < hgs.length := pyIdx_some_lt hidx
        have hlen2 : bgs.length = hgs.length := by rw [hblen, hlen]
        have hidxb : pyIdx bgs.length i = some j0 := by rw [hlen2]; exact hidx
        obtain ⟨bsub, hbget⟩ := get?_some_of_lt (hlen2 ▸ hj0lt)
        have hbsubshape := hball bsub (get?_mem_of_some hbget)
        have hsubshape := hall hsub (get?_mem_of_some hget)
        obtain ⟨cell, hsub', hcell, hset, hshape', hcount⟩ :=
          ih hbsubshape hsubshape hrec
        refine ⟨cell, Grid.nest (hgs.set j0 hsub'), ?_, ?_, ?_, ?_⟩
        · rw [pyGet_of_pyIdx hidxb, hbget, Option.some_bind]
          exact hcell
        · simp only [set_val]
          rw [pyGet_of_pyIdx hidx, hget, Option.bind_eq_bind, Option.some_bind, hset,
            Option.some_bind, pySet_of_pyIdx hidx]
          rfl
        · refine HasShape.nest _ _ _ (by simpa using hlen) hne ?_
          intro g hgm
          rcases mem_set_of_mem hgm with rfl | hgm
          · exact hshape'
          · exact hall g hgm
        · simp only [hiddenNonMine]
          exact hiddenNonMineList_set bgs hgs j0 bsub hsub hsub' _ hbget hget hcount

theorem set_val_isSome_of_get {α : Type} {g : Grid α} {c : List Int} {a : α}
    (h : get_val g c = some a) (v : α) : ∃ g', set_val g c v = some g' := by
  induction c generalizing g with
  | nil =>
    rw [get_val_nil] at h
    exact absurd h (by simp)
  | cons i c' ih =>
    cases g with
    | vec l =>
      cases c' with
      | nil =>
        simp only [get_val] at h
        obtain ⟨j, hidx, hget⟩ := pyGet_some_inv h
        exact ⟨Grid.vec (l.set j v), by
          simp only [set_val]
          rw [pySet_of_pyIdx hidx]
          rfl⟩
      | cons j c'' => exact absurd (get_val_vec_cons2 l i j c'' ▸ h) (by simp)
    | nest gs =>
      cases c' with
      | nil => exact absurd (get_val_nest_single gs i ▸ h) (by simp)
      | cons j c'' =>
        simp only [get_val] at h
        obtain ⟨sub, hpg, hrec⟩ := Option.bind_eq_some.1 h
        obtain ⟨j0, hidx, hget⟩ := pyGet_some_inv hpg
        obtain ⟨sub', hset⟩ := ih hrec
        exact ⟨Grid.nest (gs.set j0 sub'), by
          simp only [set_val]
          rw [pyGet_of_pyIdx hidx, hget, Option.bind_eq_bind, Option.some_bind, hset,
            Option.some_bind, pySet_of_pyIdx hidx]
          rfl⟩

/-! ### Behaviour of the dig engine -/

theorem dig_nd_zero (game : Game) (c : List Int) : dig_nd 0 game c = (game, 0) := rfl

theorem dig_nd_gameover {game : Game} {c : List Int} (fuel : Nat)
    (h : game.state = GameState.defeat ∨ game.state = GameState.victory) :
    dig_nd fuel game c = (game, 0) := by
  cases fuel with
  | zero => rfl
  | succ fuel =>
    simp only [dig_nd, if_pos h]

theorem dig_nd_not_hidden {game : Game} {c : List Int} (fuel : Nat)
    (h : (get_val game.hidden c).getD false = false) :
    dig_nd fuel game c = (game, 0) := by
  cases fuel with
  | zero => rfl
  | succ fuel =>
    by_cases h1 : game.state = GameState.defeat ∨ game.state = GameState.victory
    · simp only [dig_nd, if_pos h1]
    · simp only [dig_nd, if_neg h1, if_pos h]

theorem dig_nd_mine (fuel : Nat) {game : Game} {c : List Int} {h' : Grid Bool}
    (hst : game.state = GameState.ongoing)
    (hh : get_val game.hidden c = some true)
    (hb : get_val game.board c = some Cell.mine)
    (hset : set_val game.hidden c false = some h') :
    dig_nd (fuel + 1) game c =
      ({ game with hidden := h', state := GameState.defeat }, 1) := by
  have hcond1 : ¬(game.state = GameState.defeat ∨ game.state = GameState.victory) := by
    rw [hst]
    rintro (hcon | hcon) <;> cases hcon
  have hcond2 : ¬(((get_val game.hidden c).getD false) = false) := by
    rw [hh]
    simp
  simp only [dig_nd, if_neg hcond1, if_neg hcond2, hset, Option.getD_some, hb,
    ne_eq, not_true_eq_false, if_false, if_pos rfl]
  simp

theorem dig_nd_last (fuel : Nat) {game : Game} {c : List Int} {h' : Grid Bool}
    {k : Nat} (hst : game.state = GameState.ongoing)
    (hh : get_val game.hidden c = some true)
    (hb : get_val game.board c = some (Cell.num k))
    (hsq : game.squares_left = 1)
    (hset : set_val game.hidden c false = some h') :
    dig_nd (fuel + 1) game c =
      ({ game with
          hidden := h'
          squares_left := 0
          state := GameState.victory }, 1) := by
  have hcond1 : ¬(game.state = GameState.defeat ∨ game.state = GameState.victory) := by
    rw [hst]
    rintro (hcon | hcon) <;> cases hcon
  have hcond2 : ¬(((get_val game.hidden c).getD false) = false) := by
    rw [hh]
    simp
  simp only [dig_nd, if_neg hcond1, if_neg hcond2, hset, Option.getD_some, hb,
    ne_eq, hsq]
  simp [hb]

theorem dig_nd_step (fuel : Nat) {game : Game} {c : List Int} {hg' : Grid Bool}
    {cell : Cell}
    (h1 : ¬(game.state = GameState.defeat ∨ game.state = GameState.victory))
    (hsome : get_val game.hidden c = some true)
    (hcell : get_val game.board c = some cell)
    (hset : set_val game.hidden c false = some hg') :
    dig_nd (fuel + 1) game c =
      (let game2 : Game :=
        if cell ≠ Cell.mine then
          { game with hidden := hg', squares_left := game.squares_left - 1 }
        else { game with hidden := hg' }
       if cell = Cell.mine then ({ game2 with state := GameState.defeat }, 1)
       else if game2.squares_left = 0 then ({ game2 with state := GameState.victory }, 1)
       else if cell = Cell.num 0 then
         (get_neighors_nd game.dimensions c).foldl
           (fun acc neighbor =>
             let r := dig_nd fuel acc.1 neighbor
             (r.1, acc.2 + r.2)) (game2, 1)
       else (game2, 1)) := by
  have hcond2 : ¬((get_val game.hidden c).getD false = false) := by
    rw [hsome]
    simp
  simp only [dig_nd, if_neg h1, if_neg hcond2, hset, Option.getD_some, hcell]
  simp only [apply_ite Game.board, apply_ite Game.dimensions, ite_self, hcell,
    Option.getD_some]

theorem get_val_hidden_some_true {game : Game} {c : List Int}
    (h2 : ¬((get_val game.hidden c).getD false = false)) :
    get_val game.hidden c = some true := by
  cases hgv : get_val game.hidden c with
  | none =>
    rw [hgv] at h2
    simp at h2
  | some b =>
    cases b with
    | false =>
      rw [hgv] at h2
      simp at h2
    | true => rfl

theorem dig_nd_invariant (fuel : Nat) (game : Game) (c : List Int) (dims : List Nat)
    (hb : HasShape game.board dims) (hh : HasShape game.hidden dims)
    (hinv : game.squares_left = (hiddenNonMine game.board game.hidden : Int)) :
    (dig_nd fuel game c).1.board = game.board ∧
    (dig_nd fuel game c).1.dimensions = game.dimensions ∧
    HasShape (dig_nd fuel game c).1.hidden dims ∧
    (dig_nd fuel game c).1.squares_left =
      (hiddenNonMine (dig_nd fuel game c).1.board (dig_nd fuel game c).1.hidden : Int) := by
  induction fuel generalizing game c with
  | zero => exact ⟨rfl, rfl, hh, hinv⟩
  | succ fuel ih =>
    by_cases h1 : game.state = GameState.defeat ∨ game.state = GameState.victory
    · rw [dig_nd_gameover _ h1]
      exact ⟨rfl, rfl, hh, hinv⟩
    · by_cases h2 : (get_val game.hidden c).getD false = false
      · rw [dig_nd_not_hidden _ h2]
        exact ⟨rfl, rfl, hh, hinv⟩
      · have hsome : get_val game.hidden c = some true := get_val_hidden_some_true h2
        obtain ⟨cell, hg', hcell, hset, hshape', hcount⟩ := dig_reveal_spec hb hh hsome
        have heq := dig_nd_step fuel h1 hsome hcell hset
        by_cases hm : cell = Cell.mine
        · subst hm
          simp only [ne_eq, not_true_eq_false, if_false, if_true, if_pos rfl] at heq
          rw [heq]
          refine ⟨rfl, rfl, hshape', ?_⟩
          show game.squares_left = (hiddenNonMine game.board hg' : Int)
          have hc0 : hiddenNonMine game.board hg' =
              hiddenNonMine game.board game.hidden := by
            simpa using hcount
          rw [hc0]
          exact hinv
        · have hc1 : hiddenNonMine game.board hg' + 1 =
              hiddenNonMine game.board game.hidden := by
            simpa [hm] using hcount
          have hinv2 : game.squares_left - 1 = (hiddenNonMine game.board hg' : Int) := by
            rw [hinv]
            omega
          simp only [ne_eq, hm, not_false_eq_true, if_true, if_neg hm] at heq
          by_cases hz : game.squares_left - 1 = 0
          · rw [if_pos hz] at heq
            rw [heq]
            refine ⟨rfl, rfl, hshape', ?_⟩
            show game.squares_left - 1 = (hiddenNonMine game.board hg' : Int)
            exact hinv2
          · rw [if_neg hz] at heq
            by_cases h0 : cell = Cell.num 0
            · rw [if_pos h0] at heq
              rw [heq]
              have haux : ∀ (l : List (List Int)) (p : Game × Nat),
                  p.1.board = game.board → p.1.dimensions = game.dimensions →
                  HasShape p.1.hidden dims →
                  p.1.squares_left =
                    (hiddenNonMine p.1.board p.1.hidden : Int) →
                  (l.foldl
                    (fun acc neighbor =>
                      let r := dig_nd fuel acc.1 neighbor
                      (r.1, acc.2 + r.2)) p).1.board = game.board ∧
                  (l.foldl
                    (fun acc neighbor =>
                      let r := dig_nd fuel acc.1 neighbor
                      (r.1, acc.2 + r.2)) p).1.dimensions = game.dimensions ∧
                  HasShape (l.foldl
                    (fun acc neighbor =>
                      let r := dig_nd fuel acc.1 neighbor
                      (r.1, acc.2 + r.2)) p).1.hidden dims ∧
                  (l.foldl
                    (fun acc neighbor =>
                      let r := dig_nd fuel acc.1 neighbor
                      (r.1, acc.2 + r.2)) p).1.squares_left =
                    (hiddenNonMine (l.foldl
                      (fun acc neighbor =>
                        let r := dig_nd fuel acc.1 neighbor
                        (r.1, acc.2 + r.2)) p).1.board
                      (l.foldl
                        (fun acc neighbor =>
                          let r := dig_nd fuel acc.1 neighbor
                          (r.1, acc.2 + r.2)) p).1.hidden : Int) := by
                intro l
                induction l with
                | nil =>
                  intro p hpb hpd hps hpi
                  exact ⟨hpb, hpd, hps, hpi⟩
                | cons nb rest ihl =>
                  intro p hpb hpd hps hpi
                  rw [List.foldl_cons]
                  have hbshape : HasShape p.1.board dims := by rw [hpb]; exact hb
                  obtain ⟨hq1, hq2, hq3, hq4⟩ := ih p.1 nb hbshape hps hpi
                  refine ihl ((dig_nd fuel p.1 nb).1, p.2 + (dig_nd fuel p.1 nb).2)
                    ?_ ?_ hq3 hq4
                  · rw [hq1, hpb]
                  · rw [hq2, hpd]
              exact haux (get_neighors_nd game.dimensions c)
                ({ game with hidden := hg', squares_left := game.squares_left - 1 }, 1)
                rfl rfl hshape' hinv2
            · rw [if_neg h0] at heq
              rw [heq]
              refine ⟨rfl, rfl, hshape', ?_⟩
              show game.squares_left - 1 = (hiddenNonMine game.board hg' : Int)
              exact hinv2

/-! ### Characterisation of board construction -/

theorem foldl_mul_init (a : Nat) (l : List Nat) :
    List.foldl (fun total dim => total * dim) a l =
      a * List.foldl (fun total dim => total * dim) 1 l := by
  induction l generalizing a with
  | nil => simp
  | cons x xs ih =>
    rw [List.foldl_cons, List.foldl_cons, ih (a * x), ih (1 * x)]
    ring

theorem listProd_single (d : Nat) : listProd [d] = d := by
  simp [listProd]

theorem listProd_cons (d : Nat) (ds : List Nat) :
    listProd (d :: ds) = d * listProd ds := by
  unfold listProd
  rw [List.foldl_cons, foldl_mul_init (1 * d)]
  ring

theorem foldlM_pySet_spec (bombs : List (List Int)) :
    ∀ l : List Cell,
      (∀ b ∈ bombs, ∃ x, b = [x] ∧ 0 ≤ x ∧ x < (l.length : Int)) →
      ∃ l', (bombs.foldlM (fun bl bomb => pySet bl (bomb.headD 0) Cell.mine) l) = some l' ∧
        l'.length = l.length ∧
        ∀ j : Nat, j < l.length →
          l'.get? j = if [(j : Int)] ∈ bombs then some Cell.mine else l.get? j := by
  induction bombs with
  | nil =>
    intro l hv
    exact ⟨l, rfl, rfl, fun j hj => by simp⟩
  | cons b rest ihb =>
    intro l hv
    obtain ⟨x, hbx, hx0, hx1⟩ := hv b (List.mem_cons_self _ _)
    subst hbx
    have hidx : pyIdx l.length x = some x.toNat := pyIdx_of_nonneg hx0 hx1
    have hxlt : x.toNat < l.length := pyIdx_some_lt hidx
    obtain ⟨l', hfold, hlen, hchar⟩ := ihb (l.set x.toNat Cell.mine) (by
      intro bb hbb
      obtain ⟨y, hby, hy0, hy1⟩ := hv bb (List.mem_cons_of_mem _ hbb)
      exact ⟨y, hby, hy0, by simpa using hy1⟩)
    refine ⟨l', ?_, by simpa using hlen, ?_⟩
    · rw [List.foldlM_cons]
      simp only [List.headD_cons]
      rw [pySet_of_pyIdx hidx, Option.bind_eq_bind, Option.some_bind]
      exact hfold
    · intro j hj
      rw [hchar j (by simpa using hj)]
      by_cases h1 : [(j : Int)] ∈ rest
      · rw [if_pos h1, if_pos (List.mem_cons_of_mem _ h1)]
      · rw [if_neg h1]
        by_cases h2 : (j : Int) = x
        · have hjx : j = x.toNat := by omega
          subst hjx
          rw [get?_set_self hxlt, if_pos (List.mem_cons.2 (Or.inl (by rw [h2])))]
        · rw [get?_set_other (by omega)]
          rw [if_neg (by
            intro hmem
            rcases List.mem_cons.1 hmem with hmem | hmem
            · exact h2 (by injection hmem)
            · exact h1 hmem)]

theorem foldlM_pySet_count (bombs : List (List Int)) :
    ∀ l : List Cell, bombs.Nodup →
      (∀ b ∈ bombs, ∃ x, b = [x] ∧ 0 ≤ x ∧ x < (l.length : Int) ∧
        l.get? x.toNat ≠ some Cell.mine) →
      ∀ l', (bombs.foldlM (fun bl bomb => pySet bl (bomb.headD 0) Cell.mine) l) = some l' →
        l'.countP (fun cell => !(decide (cell = Cell.mine))) + bombs.length =
          l.countP (fun cell => !(decide (cell = Cell.mine))) := by
  induction bombs with
  | nil =>
    intro l hnd hv l' hfold
    injection hfold with hfold
    rw [hfold]
    simp
  | cons b rest ihb =>
    intro l hnd hv l' hfold
    obtain ⟨x, hbx, hx0, hx1, hxnm⟩ := hv b (List.mem_cons_self _ _)
    subst hbx
    have hidx : pyIdx l.length x = some x.toNat := pyIdx_of_nonneg hx0 hx1
    have hxlt : x.toNat < l.length := pyIdx_some_lt hidx
    rw [List.foldlM_cons] at hfold
    simp only [List.headD_cons] at hfold
    rw [pySet_of_pyIdx hidx, Option.bind_eq_bind, Option.some_bind] at hfold
    obtain ⟨a, ha⟩ := get?_some_of_lt hxlt
    have hanm : ¬(a = Cell.mine) := by
      intro hcon
      exact hxnm (by rw [ha, hcon])
    have hstep := countP_set (fun cell => !(decide (cell = Cell.mine))) l x.toNat a
      Cell.mine ha
    have hrest := ihb (l.set x.toNat Cell.mine) (List.Nodup.of_cons hnd) (by
      intro bb hbb
      obtain ⟨y, hby, hy0, hy1, hynm⟩ := hv bb (List.mem_cons_of_mem _ hbb)
      refine ⟨y, hby, hy0, by simpa using hy1, ?_⟩
      have hyx : ¬((y : Int) = x) := by
        intro hcon
        have : bb = [x] := by rw [hby, hcon]
        rw [this] at hbb
        exact (List.nodup_cons.1 hnd).1 hbb
      rw [get?_set_other (by omega)]
      exact hynm) l' hfold
    simp [hanm] at hstep
    simp only [List.length_cons]
    omega

theorem mapM_some_of_forall_ex {α β : Type} {f : α → Option β} :
    ∀ l : List α, (∀ x ∈ l, ∃ y, f x = some y) →
      ∃ ys, l.mapM f = some ys ∧ List.Forall₂ (fun x y => f x = some y) l ys := by
  intro l
  induction l with
  | nil => exact fun _ => ⟨[], rfl, List.Forall₂.nil⟩
  | cons x xs ih =>
    intro h
    obtain ⟨y, hy⟩ := h x (List.mem_cons_self _ _)
    obtain ⟨ys, hys, hall⟩ := ih (fun z hz => h z (List.mem_cons_of_mem _ hz))
    refine ⟨y :: ys, ?_, List.Forall₂.cons hy hall⟩
    rw [List.mapM_cons, hy, hys]
    rfl

theorem forall₂_get?_ex {α β : Type} {R : α → β → Prop} :
    ∀ {l₁ : List α} {l₂ : List β}, List.Forall₂ R l₁ l₂ →
      ∀ {n : Nat} {a : α}, l₁.get? n = some a → ∃ b, l₂.get? n = some b ∧ R a b := by
  intro l₁ l₂ h
  induction h with
  | nil => intro n a ha; simp at ha
  | cons h1 h2 ih =>
    intro n a ha
    cases n with
    | zero =>
      injection ha with ha
      subst ha
      exact ⟨_, rfl, h1⟩
    | succ n => exact ih ha

theorem forall₂_mem_right {α β : Type} {R : α → β → Prop} :
    ∀ {l₁ : List α} {l₂ : List β}, List.Forall₂ R l₁ l₂ →
      ∀ b ∈ l₂, ∃ a ∈ l₁, R a b := by
  intro l₁ l₂ h
  induction h with
  | nil => intro b hb; simp at hb
  | cons h1 h2 ih =>
    intro b hb
    rcases List.mem_cons.1 hb with rfl | hb
    · exact ⟨_, List.mem_cons_self _ _, h1⟩
    · obtain ⟨a, ha, hr⟩ := ih b hb
      exact ⟨a, List.mem_cons_of_mem _ ha, hr⟩

theorem get?_replicate_of_lt {α : Type} {a : α} {n j : Nat} (h : j < n) :
    (List.replicate n a).get? j = some a := by
  induction n generalizing j with
  | zero => simp at h
  | succ n ih =>
    cases j with
    | zero => rfl
    | succ j => exact ih (by omega)

theorem filtered_bombs_mem {bombs : List (List Int)} {d d2 : Nat} {ds : List Nat}
    (hv : ∀ b ∈ bombs, validCoord (d :: d2 :: ds) b = true) (i : Nat)
    (restc : List Int) :
    restc ∈ (bombs.filter (fun bomb => bomb.headD (-1) = (i : Int))).map
        (fun bomb => bomb.drop 1) ↔ ((i : Int) :: restc) ∈ bombs := by
  constructor
  · intro h
    obtain ⟨b, hbmem, hbdrop⟩ := List.mem_map.1 h
    have hbf := List.mem_filter.1 hbmem
    obtain ⟨k, x', hbx, hk0, hk1, hx'⟩ := validCoord_cons_ex (hv b hbf.1)
    have hhead : b.headD (-1) = (i : Int) := by simpa using hbf.2
    subst hbx
    simp only [List.headD_cons] at hhead
    simp only [List.drop_one, List.tail_cons] at hbdrop
    subst hhead
    subst hbdrop
    exact hbf.1
  · intro h
    refine List.mem_map.2 ⟨(i : Int) :: restc, List.mem_filter.2 ⟨h, by simp⟩, by simp⟩

theorem get?_range_of_lt {n j : Nat} (h : j < n) : (List.range n).get? j = some j := by
  rw [List.get?_eq_getElem?]
  simp [h]

theorem create_game_0_spec :
    ∀ (dims : List Nat) (bombs : List (List Int)), dims ≠ [] →
      (∀ b ∈ bombs, validCoord dims b = true) →
      ∃ g, create_game_0 dims bombs = some g ∧
        g.dimensions = dims ∧
        HasShape g.board dims ∧
        HasShape g.hidden dims ∧
        g.state = GameState.ongoing ∧
        g.squares_left = (listProd dims : Int) - bombs.length ∧
        (∀ c, validCoord dims c = true →
          get_val g.board c = some (if c ∈ bombs then Cell.mine else Cell.num 0)) ∧
        (∀ c, validCoord dims c = true → get_val g.hidden c = some true) := by
  intro dims
  induction dims with
  | nil => exact fun bombs hne hv => absurd rfl hne
  | cons d rest ih =>
    intro bombs hne hv
    cases rest with
    | nil =>
      have hv' : ∀ b ∈ bombs, ∃ x, b = [x] ∧ 0 ≤ x ∧
          x < ((List.replicate d (Cell.num 0)).length : Int) := by
        intro b hb
        obtain ⟨k, x', hbx, hk0, hk1, hx'⟩ := validCoord_cons_ex (hv b hb)
        have hx'nil : x' = [] := validCoord_nil_left hx'
        subst hx'nil
        exact ⟨k, hbx, hk0, by simpa using hk1⟩
      obtain ⟨l', hfold, hlen, hchar⟩ := foldlM_pySet_spec bombs _ hv'
      have hlen' : l'.length = d := by simpa using hlen
      refine ⟨{ dimensions := [d], board := Grid.vec l',
                hidden := Grid.vec (List.replicate d true),
                state := GameState.ongoing,
                squares_left := (listProd [d] : Int) - bombs.length },
        ?_, rfl, ?_, ?_, rfl, rfl, ?_, ?_⟩
      · simp only [create_game_0]
        rw [hfold, Option.bind_eq_bind, Option.some_bind]
        rfl
      · exact HasShape.vec _ _ hlen'
      · exact HasShape.vec _ _ (by simp)
      · intro c hc
        obtain ⟨k, x', hcx, hk0, hk1, hx'⟩ := validCoord_cons_ex hc
        have hx'nil : x' = [] := validCoord_nil_left hx'
        subst hx'nil
        subst hcx
        have hkidx : pyIdx l'.length k = some k.toNat :=
          pyIdx_of_nonneg hk0 (by rw [hlen']; exact hk1)
        simp only [get_val]
        rw [pyGet_of_pyIdx hkidx]
        have hklt : k.toNat < (List.replicate d (Cell.num 0)).length := by
          simp
          omega
        rw [hchar k.toNat hklt]
        rw [Int.toNat_of_nonneg hk0]
        by_cases hm : [k] ∈ bombs
        · rw [if_pos hm, if_pos hm]
        · rw [if_neg hm, if_neg hm, get?_replicate_of_lt (by omega)]
      · intro c hc
        obtain ⟨k, x', hcx, hk0, hk1, hx'⟩ := validCoord_cons_ex hc
        have hx'nil : x' = [] := validCoord_nil_left hx'
        subst hx'nil
        subst hcx
        have hkidx : pyIdx (List.replicate d true).length k = some k.toNat :=
          pyIdx_of_nonneg hk0 (by simpa using hk1)
        simp only [get_val]
        rw [pyGet_of_pyIdx hkidx]
        exact get?_replicate_of_lt (by omega)
    | cons d2 ds =>
      have hvfilter : ∀ i : Nat, ∀ b' ∈ (bombs.filter
          (fun bomb => bomb.headD (-1) = (i : Int))).map (fun bomb => bomb.drop 1),
          validCoord (d2 :: ds) b' = true := by
        intro i b' hb'
        obtain ⟨b, hbmem, hbdrop⟩ := List.mem_map.1 hb'
        have hbf := List.mem_filter.1 hbmem
        obtain ⟨k, x', hbx, hk0, hk1, hx'⟩ := validCoord_cons_ex (hv b hbf.1)
        rw [← hbdrop, hbx]
        simpa using hx'
      obtain ⟨subs, hmapm, hall₂⟩ := mapM_some_of_forall_ex (List.range d)
        (f := fun i : Nat => create_game_0 (d2 :: ds)
          ((bombs.filter (fun bomb => bomb.headD (-1) = (i : Int))).map
            (fun bomb => bomb.drop 1)))
        (by
          intro i hi
          obtain ⟨gi, hgi, _⟩ := ih _ (by simp) (hvfilter i)
          exact ⟨gi, hgi⟩)
      have hsublen : subs.length = d := by
        have := hall₂.length_eq
        simpa using this.symm
      have hsubprops : ∀ gi ∈ subs, gi.dimensions = (d2 :: ds) ∧
          HasShape gi.board (d2 :: ds) ∧ HasShape gi.hidden (d2 :: ds) := by
        intro gi hgi
        obtain ⟨i, hi, hcreate⟩ := forall₂_mem_right hall₂ gi hgi
        obtain ⟨g0, hg0, hd0, hbs, hhs, _, _, _, _⟩ := ih _ (by simp) (hvfilter i)
        rw [hg0] at hcreate
        injection hcreate with hcreate
        rw [← hcreate]
        exact ⟨hd0, hbs, hhs⟩
      refine ⟨{ dimensions := d :: d2 :: ds,
                board := Grid.nest (subs.map Game.board),
                hidden := Grid.nest (subs.map Game.hidden),
                state := GameState.ongoing,
                squares_left := (listProd (d :: d2 :: ds) : Int) - bombs.length },
        ?_, rfl, ?_, ?_, rfl, rfl, ?_, ?_⟩
      · simp only [create_game_0]
        rw [hmapm, Option.bind_eq_bind, Option.some_bind]
        rfl
      · refine HasShape.nest _ d (d2 :: ds) (by simpa using hsublen) (by simp) ?_
        intro bg hbg
        obtain ⟨gi, hgi, hbgi⟩ := List.mem_map.1 hbg
        rw [← hbgi]
        exact (hsubprops gi hgi).2.1
      · refine HasShape.nest _ d (d2 :: ds) (by simpa using hsublen) (by simp) ?_
        intro hg hhg
        obtain ⟨gi, hgi, hhgi⟩ := List.mem_map.1 hhg
        rw [← hhgi]
        exact (hsubprops gi hgi).2.2
      · intro c hc
        obtain ⟨k, x', hcx, hk0, hk1, hx'⟩ := validCoord_cons_ex hc
        subst hcx
        obtain ⟨jx, x'', hxx⟩ : ∃ jx x'', x' = jx :: x'' := by
          cases x' with
          | nil => exact absurd (validCoord_nil_right hx') (by simp)
          | cons a b => exact ⟨a, b, rfl⟩
        subst hxx
        have hkd : k.toNat < d := by omega
        have hkidx : pyIdx (subs.map Game.board).length k = some k.toNat :=
          pyIdx_of_nonneg hk0 (by simp only [List.length_map]; rw [hsublen]; exact hk1)
        obtain ⟨gi, hgiget, hcreate⟩ := forall₂_get?_ex hall₂
          (n := k.toNat) (a := k.toNat) (get?_range_of_lt hkd)
        obtain ⟨g0, hg0, hd0, hbs, hhs, _, _, hbchar, _⟩ := ih _ (by simp)
          (hvfilter k.toNat)
        rw [hg0] at hcreate
        injection hcreate with hcreate
        subst hcreate
        simp only [get_val]
        rw [pyGet_of_pyIdx hkidx, List.get?_map, hgiget]
        simp only [Option.map_some', Option.some_bind]
        rw [hbchar _ hx']
        have hmemiff := filtered_bombs_mem hv k.toNat (jx :: x'')
        have hcast : ((k.toNat : Int)) = k := Int.toNat_of_nonneg hk0
        by_cases hm : (k :: jx :: x'') ∈ bombs
        · rw [if_pos (hmemiff.2 (by rw [hcast]; exact hm)), if_pos hm]
        · rw [if_neg (fun hcon => hm (by rw [← hcast]; exact hmemiff.1 hcon)),
            if_neg hm]
      · intro c hc
        obtain ⟨k, x', hcx, hk0, hk1, hx'⟩ := validCoord_cons_ex hc
        subst hcx
        obtain ⟨jx, x'', hxx⟩ : ∃ jx x'', x' = jx :: x'' := by
          cases x' with
          | nil => exact absurd (validCoord_nil_right hx') (by simp)
          | cons a b => exact ⟨a, b, rfl⟩
        subst hxx
        have hkd : k.toNat < d := by omega
        have hkidx : pyIdx (subs.map Game.hidden).length k = some k.toNat :=
          pyIdx_of_nonneg hk0 (by simp only [List.length_map]; rw [hsublen]; exact hk1)
        obtain ⟨gi, hgiget, hcreate⟩ := forall₂_get?_ex hall₂
          (n := k.toNat) (a := k.toNat) (get?_range_of_lt hkd)
        obtain ⟨g0, hg0, hd0, hbs, hhs, _, _, _, hhchar⟩ := ih _ (by simp)
          (hvfilter k.toNat)
        rw [hg0] at hcreate
        injection hcreate with hcreate
        subst hcreate
        simp only [get_val]
        rw [pyGet_of_pyIdx hkidx, List.get?_map, hgiget]
        simp only [Option.map_some', Option.some_bind]
        exact hhchar _ hx'

/-! ### Characterisation of the bomb-count overlay -/

theorem foldlM_update_inner (dims : List Nat) (bombs : List (List Int)) :
    ∀ (L : List (List Int)) (g : Grid Cell) (m : List Int → Nat),
      (∀ nb ∈ L, validCoord dims nb = true) →
      HasShape g dims →
      (∀ c, validCoord dims c = true →
        get_val g c = some (if c ∈ bombs then Cell.mine else Cell.num (m c))) →
      ∃ g', (L.foldlM (fun bb neighbor =>
          if neighbor ∈ bombs then pure bb else update_pos bb neighbor 1) g) = some g' ∧
        HasShape g' dims ∧
        (∀ hg, HasShape hg dims → hiddenNonMine g' hg = hiddenNonMine g hg) ∧
        (∀ c, validCoord dims c = true →
          get_val g' c = some (if c ∈ bombs then Cell.mine
            else Cell.num (m c +
              (L.filter (fun nb => !(decide (nb ∈ bombs)))).count c))) := by
  intro L
  induction L with
  | nil =>
    intro g m hvL hs hm
    refine ⟨g, rfl, hs, fun hg _ => rfl, ?_⟩
    intro c hc
    rw [hm c hc]
    simp
  | cons nb L' ihL =>
    intro g m hvL hs hm
    by_cases hmem : nb ∈ bombs
    · obtain ⟨g', hfold, hs', hcnt, hchar⟩ := ihL g m
        (fun x hx => hvL x (List.mem_cons_of_mem _ hx)) hs hm
      refine ⟨g', ?_, hs', hcnt, ?_⟩
      · rw [List.foldlM_cons, if_pos hmem]
        rw [show (pure g : Option (Grid Cell)) = some g from rfl, Option.bind_eq_bind,
          Option.some_bind]
        exact hfold
      · intro c hc
        rw [hchar c hc]
        simp [hmem]
    · have hvnb := hvL nb (List.mem_cons_self _ _)
      have hcell : get_val g nb = some (Cell.num (m nb)) := by
        rw [hm nb hvnb, if_neg hmem]
      obtain ⟨g1, hupd, hs1, hget1, hother1, hcnt1⟩ :=
        update_pos_spec 1 hs hvnb hcell
      obtain ⟨g', hfold, hs', hcnt, hchar⟩ := ihL g1
        (fun c => if c = nb then m c + 1 else m c)
        (fun x hx => hvL x (List.mem_cons_of_mem _ hx)) hs1 (by
          intro c hc
          beta_reduce
          by_cases hcnb : c = nb
          · subst hcnb
            rw [if_neg hmem, if_pos rfl]
            exact hget1
          · rw [hother1 c hc hcnb, hm c hc]
            by_cases hcb : c ∈ bombs
            · rw [if_pos hcb, if_pos hcb]
            · rw [if_neg hcb, if_neg hcb, if_neg hcnb])
      refine ⟨g', ?_, hs', ?_, ?_⟩
      · rw [List.foldlM_cons, if_neg hmem, hupd, Option.bind_eq_bind, Option.some_bind]
        exact hfold
      · intro hg hgs
        rw [hcnt hg hgs, hcnt1 hg hgs]
      · intro c hc
        rw [hchar c hc]
        by_cases hcb : c ∈ bombs
        · rw [if_pos hcb, if_pos hcb]
        · rw [if_neg hcb, if_neg hcb]
          have hfilter : (nb :: L').filter (fun x => !(decide (x ∈ bombs))) =
              nb :: (L'.filter (fun x => !(decide (x ∈ bombs)))) := by
            rw [List.filter_cons, if_pos (by simpa using hmem)]
          rw [hfilter, List.count_cons]
          by_cases hcnb : c = nb
          · subst hcnb
            rw [if_pos rfl, beq_self_eq_true]
            simp only [if_true]
            have harith : m c + 1 +
                (L'.filter (fun x => !(decide (x ∈ bombs)))).count c =
                m c + ((L'.filter (fun x => !(decide (x ∈ bombs)))).count c + 1) := by
              omega
            rw [harith]
          · rw [if_neg hcnb]
            have hne2 : (nb == c) = false := by
              rw [beq_eq_false_iff_ne]
              exact fun hcon => hcnb hcon.symm
            rw [hne2]
            simp

theorem neighbors_valid (dims : List Nat) (b : List Int) (hne : dims ≠ [])
    (hvb : validCoord dims b = true) :
    ∀ nb ∈ get_neighors_nd dims b, validCoord dims nb = true := by
  intro nb hnb
  obtain ⟨d0, ds, rfl⟩ : ∃ d0 ds, dims = d0 :: ds := by
    cases dims with
    | nil => exact absurd rfl hne
    | cons a bb => exact ⟨a, bb, rfl⟩
  obtain ⟨l0, ls, rfl⟩ : ∃ l0 ls, b = l0 :: ls := by
    cases b with
    | nil => exact absurd (validCoord_nil_right hvb) (by simp)
    | cons a bb => exact ⟨a, bb, rfl⟩
  rw [validCoord_iff]
  exact forall₂_candR_valid (validCoord_iff.1 hvb) (mem_get_neighors_nd.1 hnb)

theorem mem_neighbors_iff_chebAdj {dims : List Nat} {b c : List Int} (hne : dims ≠ [])
    (hvb : validCoord dims b = true) (hvc : validCoord dims c = true) :
    (c ∈ get_neighors_nd dims b) ↔ chebAdj b c = true := by
  obtain ⟨d0, ds, rfl⟩ : ∃ d0 ds, dims = d0 :: ds := by
    cases dims with
    | nil => exact absurd rfl hne
    | cons a bb => exact ⟨a, bb, rfl⟩
  obtain ⟨l0, ls, rfl⟩ : ∃ l0 ls, b = l0 :: ls := by
    cases b with
    | nil => exact absurd (validCoord_nil_right hvb) (by simp)
    | cons a bb => exact ⟨a, bb, rfl⟩
  rw [mem_get_neighors_nd, chebAdj_iff]
  exact forall₂_candR_iff_cheb (validCoord_iff.1 hvb) (validCoord_iff.1 hvc)

theorem foldlM_update_outer (dims : List Nat) (bombs : List (List Int))
    (hne : dims ≠ []) :
    ∀ (outer : List (List Int)) (g : Grid Cell) (m : List Int → Nat),
      (∀ b ∈ outer, validCoord dims b = true) →
      HasShape g dims →
      (∀ c, validCoord dims c = true →
        get_val g c = some (if c ∈ bombs then Cell.mine else Cell.num (m c))) →
      ∃ g', (outer.foldlM (fun b bomb =>
          (get_neighors_nd dims bomb).foldlM
            (fun bb neighbor =>
              if neighbor ∈ bombs then pure bb else update_pos bb neighbor 1) b) g) =
          some g' ∧
        HasShape g' dims ∧
        (∀ hg, HasShape hg dims → hiddenNonMine g' hg = hiddenNonMine g hg) ∧
        (∀ c, validCoord dims c = true →
          get_val g' c = some (if c ∈ bombs then Cell.mine
            else Cell.num (m c + (outer.map (fun b =>
              ((get_neighors_nd dims b).filter
                (fun nb => !(decide (nb ∈ bombs)))).count c)).sum))) := by
  intro outer
  induction outer with
  | nil =>
    intro g m hvout hs hm
    refine ⟨g, rfl, hs, fun hg _ => rfl, ?_⟩
    intro c hc
    rw [hm c hc]
    simp
  | cons b rest ihout =>
    intro g m hvout hs hm
    obtain ⟨g1, hfold1, hs1, hcnt1, hchar1⟩ := foldlM_update_inner dims bombs
      (get_neighors_nd dims b) g m
      (neighbors_valid dims b hne (hvout b (List.mem_cons_self _ _))) hs hm
    obtain ⟨g', hfold, hs', hcnt, hchar⟩ := ihout g1
      (fun c => m c + ((get_neighors_nd dims b).filter
        (fun nb => !(decide (nb ∈ bombs)))).count c)
      (fun x hx => hvout x (List.mem_cons_of_mem _ hx)) hs1 hchar1
    refine ⟨g', ?_, hs', ?_, ?_⟩
    · rw [List.foldlM_cons, hfold1, Option.bind_eq_bind, Option.some_bind]
      exact hfold
    · intro hg hgs
      rw [hcnt hg hgs, hcnt1 hg hgs]
    · intro c hc
      rw [hchar c hc]
      by_cases hcb : c ∈ bombs
      · rw [if_pos hcb, if_pos hcb]
      · rw [if_neg hcb, if_neg hcb, List.map_cons, List.sum_cons]
        have harith : m c + ((get_neighors_nd dims b).filter
              (fun nb => !(decide (nb ∈ bombs)))).count c +
            (rest.map (fun bb => ((get_neighors_nd dims bb).filter
              (fun nb => !(decide (nb ∈ bombs)))).count c)).sum =
            m c + (((get_neighors_nd dims b).filter
              (fun nb => !(decide (nb ∈ bombs)))).count c +
            (rest.map (fun bb => ((get_neighors_nd dims bb).filter
              (fun nb => !(decide (nb ∈ bombs)))).count c)).sum) := by
          omega
        rw [harith]

theorem sum_map_ite_eq_countP {α : Type} (l : List α) (p : α → Bool)
    (f : α → Nat) (hf : ∀ b ∈ l, f b = if p b then 1 else 0) :
    (l.map f).sum = l.countP p := by
  induction l with
  | nil => simp
  | cons b rest ih =>
    rw [List.map_cons, List.sum_cons, List.countP_cons,
      ih (fun x hx => hf x (List.mem_cons_of_mem _ hx)),
      hf b (List.mem_cons_self _ _)]
    by_cases hp : p b = true
    · simp only [hp, if_true]
      omega
    · simp only [hp, if_false]
      have hp' : p b = false := by
        cases hpb : p b
        · rfl
        · exact absurd hpb hp
      simp [hp']

/-! ### Counting hidden cells of a fresh board -/

theorem countP_zip_replicate_true :
    ∀ (l : List Cell) (n : Nat), l.length ≤ n →
      (l.zip (List.replicate n true)).countP hmPred =
        l.countP (fun cell => !(decide (cell = Cell.mine))) := by
  intro l
  induction l with
  | nil => intro n hn; simp
  | cons c cs ih =>
    intro n hn
    cases n with
    | zero => simp at hn
    | succ n =>
      rw [List.replicate_succ, List.zip_cons_cons, List.countP_cons, List.countP_cons,
        ih n (by simpa using hn)]
      simp [hmPred]

theorem countP_replicate_num0 (d : Nat) :
    (List.replicate d (Cell.num 0)).countP (fun cell => !(decide (cell = Cell.mine))) = d := by
  induction d with
  | zero => rfl
  | succ d ih =>
    rw [List.replicate_succ, List.countP_cons, ih]
    simp

theorem hiddenNonMineList_map :
    ∀ subs : List Game,
      hiddenNonMineList (subs.map Game.board) (subs.map Game.hidden) =
        (subs.map (fun gi => hiddenNonMine gi.board gi.hidden)).sum := by
  intro subs
  induction subs with
  | nil => rfl
  | cons gi rest ih =>
    simp only [List.map_cons, hiddenNonMineList, List.sum_cons, ih]

theorem sum_map_add {α : Type} (l : List α) (f g : α → Nat) :
    (l.map (fun x => f x + g x)).sum = (l.map f).sum + (l.map g).sum := by
  induction l with
  | nil => rfl
  | cons x xs ih =>
    simp only [List.map_cons, List.sum_cons, ih]
    omega

theorem sum_range_ind (x : Int) :
    ∀ d : Nat,
      ((List.range d).map (fun (i : Nat) => if x = (i : Int) then 1 else 0)).sum =
        if ∃ k : Nat, k < d ∧ x = (k : Int) then 1 else 0 := by
  intro d
  induction d with
  | zero =>
    rw [if_neg (by rintro ⟨k, hk, _⟩; omega)]
    rfl
  | succ d ih =>
    rw [List.range_succ, List.map_append, List.sum_append, ih]
    by_cases hx : x = (d : Int)
    · have hnot : ¬∃ k : Nat, k < d ∧ x = (k : Int) := by
        rintro ⟨k, hk, hxk⟩
        rw [hx] at hxk
        have : d = k := by exact_mod_cast hxk
        omega
      rw [if_neg hnot, if_pos ⟨d, by omega, hx⟩]
      simp [hx]
    · by_cases hex : ∃ k : Nat, k < d ∧ x = (k : Int)
      · obtain ⟨k, hk, hxk⟩ := hex
        rw [if_pos ⟨k, hk, hxk⟩, if_pos ⟨k, by omega, hxk⟩]
        simp [hx]
      · rw [if_neg hex, if_neg (by
          rintro ⟨k, hk, hxk⟩
          by_cases hkd : k = d
          · exact hx (hkd ▸ hxk)
          · exact hex ⟨k, by omega, hxk⟩)]
        simp [hx]

theorem map_congr_fn {α β : Type} (l : List α) (f g : α → β)
    (h : ∀ a ∈ l, f a = g a) : l.map f = l.map g := by
  induction l with
  | nil => rfl
  | cons x xs ih =>
    rw [List.map_cons, List.map_cons, h x (List.mem_cons_self _ _),
      ih (fun a ha => h a (List.mem_cons_of_mem _ ha))]

theorem sum_countP_heads (d : Nat) :
    ∀ bombs : List (List Int),
      (∀ b ∈ bombs, ∃ k : Nat, b.headD (-1) = (k : Int) ∧ k < d) →
      ((List.range d).map (fun (i : Nat) =>
        bombs.countP (fun bomb => decide (bomb.headD (-1) = (i : Int))))).sum =
        bombs.length := by
  intro bombs
  induction bombs with
  | nil =>
    intro hh
    simp
  | cons b rest ih =>
    intro hh
    obtain ⟨k, hbk, hkd⟩ := hh b (List.mem_cons_self _ _)
    have hsplit : ((List.range d).map (fun (i : Nat) =>
        (b :: rest).countP (fun bomb => decide (bomb.headD (-1) = (i : Int))))).sum =
        ((List.range d).map (fun (i : Nat) =>
          rest.countP (fun bomb => decide (bomb.headD (-1) = (i : Int))))).sum +
        ((List.range d).map (fun (i : Nat) =>
          if b.headD (-1) = (i : Int) then 1 else 0)).sum := by
      rw [← sum_map_add]
      congr 1
      refine map_congr_fn _ _ _ (fun i _ => ?_)
      rw [List.countP_cons]
      congr 1
      by_cases hb2 : b.headD (-1) = (i : Int)
      · simp [hb2]
      · simp [hb2]
    rw [hsplit, ih (fun x hx => hh x (List.mem_cons_of_mem _ hx)), sum_range_ind]
    rw [if_pos ⟨k, hkd, hbk⟩]
    simp

theorem forall₂_sum_add {α β : Type} {R : α → β → Prop} {l₁ : List α} {l₂ : List β}
    (h : List.Forall₂ R l₁ l₂) (f : α → Nat) (g : β → Nat) (K : Nat)
    (hfg : ∀ a b, R a b → g b + f a = K) :
    (l₂.map g).sum + (l₁.map f).sum = l₁.length * K := by
  induction h with
  | nil => simp
  | cons h1 h2 ih =>
    rename_i a b l₁' l₂'
    simp only [List.map_cons, List.sum_cons, List.length_cons]
    have := hfg a b h1
    have := ih
    ring_nf
    omega

theorem filtered_bombs_nodup {bombs : List (List Int)} {d d2 : Nat} {ds : List Nat}
    (hnd : bombs.Nodup) (hv : ∀ b ∈ bombs, validCoord (d :: d2 :: ds) b = true)
    (i : Nat) :
    ((bombs.filter (fun bomb => bomb.headD (-1) = (i : Int))).map
      (fun bomb => bomb.drop 1)).Nodup := by
  refine List.Nodup.map_on ?_ (List.Nodup.filter _ hnd)
  intro x hx y hy hdrop
  have hxf := List.mem_filter.1 hx
  have hyf := List.mem_filter.1 hy
  obtain ⟨kx, tx, hbx, _, _, _⟩ := validCoord_cons_ex (hv x hxf.1)
  obtain ⟨ky, ty, hby, _, _, _⟩ := validCoord_cons_ex (hv y hyf.1)
  have hhx : x.headD (-1) = (i : Int) := by simpa using hxf.2
  have hhy : y.headD (-1) = (i : Int) := by simpa using hyf.2
  rw [hbx] at hhx hdrop ⊢
  rw [hby] at hhy hdrop ⊢
  simp only [List.headD_cons] at hhx hhy
  simp only [List.drop_one, List.tail_cons] at hdrop
  rw [hhx, hhy, hdrop]

theorem create_game_0_count :
    ∀ (dims : List Nat) (bombs : List (List Int)), dims ≠ [] → bombs.Nodup →
      (∀ b ∈ bombs, validCoord dims b = true) →
      ∀ g, create_game_0 dims bombs = some g →
        hiddenNonMine g.board g.hidden + bombs.length = listProd dims := by
  intro dims
  induction dims with
  | nil => exact fun bombs hne _ _ _ _ => absurd rfl hne
  | cons d rest ih =>
    intro bombs hne hnd hv g hg
    cases rest with
    | nil =>
      have hv' : ∀ b ∈ bombs, ∃ x, b = [x] ∧ 0 ≤ x ∧
          x < ((List.replicate d (Cell.num 0)).length : Int) := by
        intro b hb
        obtain ⟨k, x', hbx, hk0, hk1, hx'⟩ := validCoord_cons_ex (hv b hb)
        have hx'nil : x' = [] := validCoord_nil_left hx'
        subst hx'nil
        exact ⟨k, hbx, hk0, by simpa using hk1⟩
      obtain ⟨l', hfold, hlen, hchar⟩ := foldlM_pySet_spec bombs _ hv'
      simp only [create_game_0] at hg
      rw [hfold, Option.bind_eq_bind, Option.some_bind] at hg
      injection hg with hg
      subst hg
      simp only [hiddenNonMine]
      rw [countP_zip_replicate_true l' d (by simpa using hlen.le)]
      have hcount := foldlM_pySet_count bombs (List.replicate d (Cell.num 0)) hnd (by
        intro b hb
        obtain ⟨x, hbx, hx0, hx1⟩ := hv' b hb
        refine ⟨x, hbx, hx0, hx1, ?_⟩
        rw [get?_replicate_of_lt (by
          simp only [List.length_replicate] at hx1
          omega)]
        simp) l' hfold
      rw [hcount, countP_replicate_num0, listProd_single]
    | cons d2 ds =>
      have hvfilter : ∀ i : Nat, ∀ b' ∈ (bombs.filter
          (fun bomb => bomb.headD (-1) = (i : Int))).map (fun bomb => bomb.drop 1),
          validCoord (d2 :: ds) b' = true := by
        intro i b' hb'
        obtain ⟨b, hbmem, hbdrop⟩ := List.mem_map.1 hb'
        have hbf := List.mem_filter.1 hbmem
        obtain ⟨k, x', hbx, hk0, hk1, hx'⟩ := validCoord_cons_ex (hv b hbf.1)
        rw [← hbdrop, hbx]
        simpa using hx'
      obtain ⟨subs, hmapm, hall₂⟩ := mapM_some_of_forall_ex (List.range d)
        (f := fun i : Nat => create_game_0 (d2 :: ds)
          ((bombs.filter (fun bomb => bomb.headD (-1) = (i : Int))).map
            (fun bomb => bomb.drop 1)))
        (by
          intro i hi
          obtain ⟨gi, hgi, _⟩ := create_game_0_spec _ _ (by simp) (hvfilter i)
          exact ⟨gi, hgi⟩)
      simp only [create_game_0] at hg
      rw [hmapm, Option.bind_eq_bind, Option.some_bind] at hg
      injection hg with hg
      subst hg
      simp only [hiddenNonMine]
      rw [hiddenNonMineList_map]
      have hsum := forall₂_sum_add hall₂
        (fun i : Nat => ((bombs.filter
          (fun bomb => bomb.headD (-1) = (i : Int))).map
            (fun bomb => bomb.drop 1)).length)
        (fun gi => hiddenNonMine gi.board gi.hidden)
        (listProd (d2 :: ds))
        (by
          intro i gi hr
          exact ih _ (by simp) (filtered_bombs_nodup hnd hv i) (hvfilter i) gi hr)
      have hlens : ((List.range d).map (fun i : Nat => ((bombs.filter
          (fun bomb => bomb.headD (-1) = (i : Int))).map
            (fun bomb => bomb.drop 1)).length)).sum = bombs.length := by
        have hmapeq : ((List.range d).map (fun i : Nat => ((bombs.filter
            (fun bomb => bomb.headD (-1) = (i : Int))).map
              (fun bomb => bomb.drop 1)).length)).sum =
            ((List.range d).map (fun i : Nat =>
              bombs.countP (fun bomb => decide (bomb.headD (-1) = (i : Int))))).sum := by
          congr 1
          refine map_congr_fn _ _ _ (fun i _ => ?_)
          rw [List.length_map]
          exact (List.countP_eq_length_filter _ _).symm
        rw [hmapeq]
        refine sum_countP_heads d bombs ?_
        intro b hb
        obtain ⟨k, x', hbx, hk0, hk1, hx'⟩ := validCoord_cons_ex (hv b hb)
        refine ⟨k.toNat, ?_, by omega⟩
        rw [hbx]
        simp only [List.headD_cons]
        omega
      rw [List.length_range] at hsum
      rw [hlens] at hsum
      rw [hsum, listProd_cons d (d2 :: ds)]

theorem count_eq_one_of_mem_nodup {α : Type} [BEq α] [LawfulBEq α] {l : List α}
    {a : α} (hnd : l.Nodup) (h : a ∈ l) : l.count a = 1 := by
  induction l with
  | nil => simp at h
  | cons x xs ih =>
    rw [List.count_cons]
    rcases List.mem_cons.1 h with rfl | hmem
    · have hnotin : a ∉ xs := (List.nodup_cons.1 hnd).1
      rw [List.count_eq_zero.2 hnotin]
      simp
    · have hax : ¬(x == a) = true := by
        intro hcon
        have hxa : x = a := by simpa using hcon
        exact (List.nodup_cons.1 hnd).1 (hxa ▸ hmem)
      rw [ih (List.nodup_cons.1 hnd).2 hmem, if_neg hax]

theorem new_game_nd_spec (dims : List Nat) (bombs : List (List Int))
    (hne : dims ≠ []) (hnd : bombs.Nodup)
    (hv : ∀ b ∈ bombs, validCoord dims b = true) :
    ∃ g, new_game_nd dims bombs = some g ∧
      g.dimensions = dims ∧
      HasShape g.board dims ∧
      HasShape g.hidden dims ∧
      g.state = GameState.ongoing ∧
      g.squares_left = (listProd dims : Int) - bombs.length ∧
      (∀ c, validCoord dims c = true →
        get_val g.board c = some (if c ∈ bombs then Cell.mine
          else Cell.num (mineNeighborCount bombs c))) ∧
      (∀ c, validCoord dims c = true → get_val g.hidden c = some true) ∧
      g.squares_left = (hiddenNonMine g.board g.hidden : Int) := by
  obtain ⟨g0, hg0, hd0, hbs0, hhs0, hst0, hsq0, hbchar0, hhchar0⟩ :=
    create_game_0_spec dims bombs hne hv
  obtain ⟨board', hupd, hbs', hcnt', hchar'⟩ := foldlM_update_outer dims bombs hne
    bombs g0.board (fun _ => 0) hv hbs0 (fun c hc => hbchar0 c hc)
  have hupd' : update_bombs_nd g0.board bombs dims = some board' := hupd
  refine ⟨{ g0 with board := board' }, ?_, hd0, hbs', hhs0, hst0, hsq0, ?_, hhchar0, ?_⟩
  · unfold new_game_nd
    rw [hg0, Option.bind_eq_bind, Option.some_bind, hupd', Option.bind_eq_bind,
      Option.some_bind]
    rfl
  · intro c hc
    rw [hchar' c hc]
    by_cases hcb : c ∈ bombs
    · rw [if_pos hcb, if_pos hcb]
    · rw [if_neg hcb, if_neg hcb]
      have hcount : ∀ b ∈ bombs,
          ((get_neighors_nd dims b).filter (fun nb => !(decide (nb ∈ bombs)))).count c =
          if (decide (b ≠ c) && chebAdj b c) = true then 1 else 0 := by
        intro b hb
        have hcf : ((get_neighors_nd dims b).filter
            (fun nb => !(decide (nb ∈ bombs)))).count c =
            (get_neighors_nd dims b).count c := List.count_filter (by simp [hcb])
        rw [hcf]
        have hbc : b ≠ c := fun hcon => hcb (hcon ▸ hb)
        by_cases hmem : c ∈ get_neighors_nd dims b
        · rw [count_eq_one_of_mem_nodup nodup_get_neighors_nd hmem]
          have hcheb : chebAdj b c = true :=
            (mem_neighbors_iff_chebAdj hne (hv b hb) hc).1 hmem
          rw [if_pos (by simp [hbc, hcheb])]
        · rw [List.count_eq_zero.2 hmem]
          have hcheb : ¬(chebAdj b c = true) := fun hcon =>
            hmem ((mem_neighbors_iff_chebAdj hne (hv b hb) hc).2 hcon)
          rw [if_neg (fun hcon => hcheb (by
            rw [Bool.and_eq_true] at hcon
            exact hcon.2))]
      have hsum := sum_map_ite_eq_countP bombs
        (fun b => decide (b ≠ c) && chebAdj b c)
        (fun b => ((get_neighors_nd dims b).filter
          (fun nb => !(decide (nb ∈ bombs)))).count c) hcount
      unfold mineNeighborCount
      rw [← hsum]
      simp
  · have hc0 := create_game_0_count dims bombs hne hnd hv g0 hg0
    have hcnteq := hcnt' g0.hidden hhs0
    show g0.squares_left = (hiddenNonMine board' g0.hidden : Int)
    rw [hcnteq, hsq0]
    omega

/-! ### Characterisation of the renderer -/

theorem getD_eq_of_get? {α : Type} {l : List α} {i : Nat} {a : α} (dflt : α)
    (h : l.get? i = some a) : l.getD i dflt = a := by
  induction l generalizing i with
  | nil => simp at h
  | cons x xs ih =>
    cases i with
    | zero => injection h with h
    | succ i =>
      simp only [List.getD_cons_succ]
      exact ih h

theorem render_nd_spec :
    ∀ (dims : List Nat) (board : Grid Cell) (hidden : Grid Bool) (xray : Bool),
      HasShape board dims → HasShape hidden dims →
      HasShape (render_nd dims board hidden xray) dims ∧
      (∀ c, validCoord dims c = true → ∀ cell, get_val board c = some cell →
        get_val (render_nd dims board hidden xray) c =
          some (if xray = false ∧ get_val hidden c = some true then "_"
            else if cell = Cell.num 0 then " " else cellStr cell)) := by
  intro dims
  induction dims with
  | nil => intro board hidden xray hb hh; cases hb
  | cons d rest ih =>
    intro board hidden xray hb hh
    cases rest with
    | nil =>
      obtain ⟨bl, rfl, hbl⟩ := hasShape_single hb
      obtain ⟨hl, rfl, hhl⟩ := hasShape_single hh
      constructor
      · exact HasShape.vec _ _ (by simp)
      · intro c hc cell hcell
        obtain ⟨k, x', hcx, hk0, hk1, hx'⟩ := validCoord_cons_ex hc
        have hx'nil : x' = [] := validCoord_nil_left hx'
        subst hx'nil
        subst hcx
        have hklt : k.toNat < d := by omega
        simp only [render_nd, get_val] at hcell ⊢
        rw [pyGet_of_nonneg hk0 (by simp; omega), List.get?_map, get?_range_of_lt hklt]
        simp only [Option.map_some']
        rw [Int.toNat_of_nonneg hk0]
        obtain ⟨hv, hhv⟩ := get?_some_of_lt (show k.toNat < hl.length by omega)
        have hpg : pyGet hl k = some hv := by
          rw [pyGet_of_nonneg hk0 (by rw [hhl]; exact hk1)]
          exact hhv
        simp only [hpg, hcell, Option.getD_some, Option.some.injEq]
        exact if_congr and_comm rfl rfl
    | cons d2 ds =>
      obtain ⟨bgs, rfl, hblen, hball⟩ := hasShape_cons (by simp) hb
      obtain ⟨hgs, rfl, hhlen, hhall⟩ := hasShape_cons (by simp) hh
      constructor
      · refine HasShape.nest _ _ _ (by simp) (by simp) ?_
        intro gm hgm
        obtain ⟨i, hi, hgi⟩ := List.mem_map.1 hgm
        rw [← hgi]
        have hid : i < d := by simpa using List.mem_range.1 hi
        obtain ⟨bsub, hbsub⟩ := get?_some_of_lt (show i < bgs.length by omega)
        obtain ⟨hsub, hhsub⟩ := get?_some_of_lt (show i < hgs.length by omega)
        have hbchild : gridChild (Grid.nest bgs) i = bsub := by
          simp only [gridChild]
          exact getD_eq_of_get? _ hbsub
        have hhchild : gridChild (Grid.nest hgs) i = hsub := by
          simp only [gridChild]
          exact getD_eq_of_get? _ hhsub
        rw [hbchild, hhchild]
        exact (ih bsub hsub xray (hball bsub (get?_mem_of_some hbsub))
          (hhall hsub (get?_mem_of_some hhsub))).1
      · intro c hc cell hcell
        obtain ⟨k, x', hcx, hk0, hk1, hx'⟩ := validCoord_cons_ex hc
        subst hcx
        obtain ⟨jx, x'', hxx⟩ : ∃ jx x'', x' = jx :: x'' := by
          cases x' with
          | nil => exact absurd (validCoord_nil_right hx') (by simp)
          | cons a b => exact ⟨a, b, rfl⟩
        subst hxx
        have hklt : k.toNat < d := by omega
        obtain ⟨bsub, hbsub⟩ := get?_some_of_lt (show k.toNat < bgs.length by omega)
        obtain ⟨hsub, hhsub⟩ := get?_some_of_lt (show k.toNat < hgs.length by omega)
        have hbchild : gridChild (Grid.nest bgs) k.toNat = bsub := by
          simp only [gridChild]
          exact getD_eq_of_get? _ hbsub
        have hhchild : gridChild (Grid.nest hgs) k.toNat = hsub := by
          simp only [gridChild]
          exact getD_eq_of_get? _ hhsub
        have hcellsub : get_val bsub (jx :: x'') = some cell := by
          simp only [get_val] at hcell
          rw [pyGet_of_pyIdx (pyIdx_of_nonneg hk0 (by rw [hblen]; exact hk1)), hbsub,
            Option.some_bind] at hcell
          exact hcell
        have hhidsub2 : (pyGet hgs k).bind (fun sub => get_val sub (jx :: x'')) =
            get_val hsub (jx :: x'') := by
          rw [pyGet_of_pyIdx (pyIdx_of_nonneg hk0 (by rw [hhlen]; exact hk1)), hhsub,
            Option.some_bind]
        have hrec := (ih bsub hsub xray (hball bsub (get?_mem_of_some hbsub))
          (hhall hsub (get?_mem_of_some hhsub))).2 (jx :: x'') hx' cell hcellsub
        simp only [render_nd, get_val]
        have hkidx2 : pyIdx ((List.range d).map (fun index =>
            render_nd (d2 :: ds) (gridChild (Grid.nest bgs) index)
              (gridChild (Grid.nest hgs) index) xray)).length k = some k.toNat :=
          pyIdx_of_nonneg hk0 (by simp; omega)
        rw [pyGet_of_pyIdx hkidx2, List.get?_map, get?_range_of_lt hklt]
        simp only [Option.map_some', Option.some_bind]
        rw [hbchild, hhchild, hrec]
        simp only [hhidsub2]

/-! ### The squares_left invariant along a sequence of digs -/

theorem runDigs_invariant (digs : List (Nat × List Int)) (g : Game) (dims : List Nat)
    (hb : HasShape g.board dims) (hh : HasShape g.hidden dims)
    (hinv : g.squares_left = (hiddenNonMine g.board g.hidden : Int)) :
    (runDigs g digs).squares_left =
      (hiddenNonMine (runDigs g digs).board (runDigs g digs).hidden : Int) := by
  induction digs generalizing g with
  | nil => exact hinv
  | cons d ds ih =>
    obtain ⟨hbd, _, hhd, hsq⟩ := dig_nd_invariant d.1 g d.2 dims hb hh hinv
    have hb' : HasShape (dig_nd d.1 g d.2).1.board dims := hbd ▸ hb
    show (runDigs (dig_nd d.1 g d.2).1 ds).squares_left = _
    exact ih _ hb' hhd hsq

/-! ### Decimal digit strings never collide with the hidden marker -/

theorem digitChar_ne_underscore : ∀ n, n < 10 → digitChar n ≠ '_' := by decide

theorem underscore_not_mem_natDecimal (n : Nat) : '_' ∉ natDecimal n := by
  induction n using Nat.strong_induction_on with
  | _ n ih =>
    rw [natDecimal]
    split
    · next h =>
      simp only [List.mem_singleton]
      exact fun hc => digitChar_ne_underscore n h hc.symm
    · next h =>
      intro hc
      rw [List.mem_append] at hc
      cases hc with
      | inl hc => exact ih (n / 10) (Nat.div_lt_self (by omega) (by decide)) hc
      | inr hc =>
        rw [List.mem_singleton] at hc
        exact digitChar_ne_underscore (n % 10) (Nat.mod_lt _ (by decide)) hc.symm

theorem cellStr_ne_underscore (cell : Cell) : cellStr cell ≠ "_" := by
  cases cell with
  | mine => decide
  | num n =>
    intro hc
    simp only [cellStr] at hc
    have h2 : String.mk (natDecimal n) = String.mk ['_'] := hc
    injection h2 with h3
    exact underscore_not_mem_natDecimal n (h3 ▸ List.mem_singleton_self _)

/-! ### Fields set literally by the constructor -/

theorem create_game_0_fields (dims : List Nat) (bombs : List (List Int)) (g : Game)
    (h : create_game_0 dims bombs = some g) :
    g.state = GameState.ongoing ∧
    g.squares_left = (listProd dims : Int) - bombs.length := by
  cases dims with
  | nil => exact absurd h (by simp [create_game_0])
  | cons d rest =>
    cases rest with
    | nil =>
      simp only [create_game_0, Option.bind_eq_bind] at h
      obtain ⟨board, _, hpure⟩ := Option.bind_eq_some.1 h
      injection hpure with hg
      subst hg
      exact ⟨rfl, rfl⟩
    | cons d2 ds =>
      simp only [create_game_0, Option.bind_eq_bind] at h
      obtain ⟨subs, _, hpure⟩ := Option.bind_eq_some.1 h
      injection hpure with hg
      subst hg
      exact ⟨rfl, rfl⟩

theorem new_game_nd_fields (dims : List Nat) (bombs : List (List Int)) (g : Game)
    (h : new_game_nd dims bombs = some g) :
    g.state = GameState.ongoing ∧
    g.squares_left = (listProd dims : Int) - bombs.length := by
  simp only [new_game_nd, Option.bind_eq_bind] at h
  obtain ⟨g0, hg0, h2⟩ := Option.bind_eq_some.1 h
  obtain ⟨b, _, hpure⟩ := Option.bind_eq_some.1 h2
  injection hpure with hg
  subst hg
  exact create_game_0_fields dims bombs g0 hg0

/-! ### The exact domain of Python indexing: wrap-around bounds -/

theorem pyIdx_none_of_not_wrap {n : Nat} {i : Int}
    (h : ¬(-(n : Int) ≤ i ∧ i < (n : Int))) : pyIdx n i = none := by
  unfold pyIdx
  rw [if_neg (by omega), if_neg (by omega)]

theorem pyIdx_some_of_wrap {n : Nat} {i : Int}
    (h1 : -(n : Int) ≤ i) (h2 : i < (n : Int)) :
    ∃ j, pyIdx n i = some j ∧ j < n := by
  unfold pyIdx
  by_cases h0 : 0 ≤ i
  · rw [if_pos ⟨h0, h2⟩]
    exact ⟨i.toNat, rfl, by omega⟩
  · rw [if_neg (by omega), if_pos ⟨h1, by omega⟩]
    exact ⟨((n : Int) + i).toNat, rfl, by omega⟩

theorem pyGet_none_of_not_wrap {α : Type} {l : List α} {i : Int}
    (h : ¬(-(l.length : Int) ≤ i ∧ i < (l.length : Int))) : pyGet l i = none := by
  unfold pyGet
  rw [pyIdx_none_of_not_wrap h]
  rfl

theorem pySet_none_of_not_wrap {α : Type} {l : List α} {i : Int} (v : α)
    (h : ¬(-(l.length : Int) ≤ i ∧ i < (l.length : Int))) : pySet l i v = none := by
  unfold pySet
  rw [pyIdx_none_of_not_wrap h]
  rfl

theorem pyGet_some_of_wrap {α : Type} {l : List α} {i : Int}
    (h1 : -(l.length : Int) ≤ i) (h2 : i < (l.length : Int)) :
    ∃ a, pyGet l i = some a := by
  obtain ⟨j, hj, hjl⟩ := pyIdx_some_of_wrap h1 h2
  obtain ⟨a, ha⟩ := get?_some_of_lt hjl
  exact ⟨a, by rw [pyGet_of_pyIdx hj]; exact ha⟩

/-- A coordinate on which Python indexing does not raise: one index per axis,
each inside `[-dim_i, dim_i - 1]` — the exact per-axis guard of `pyIdx`
(negative indices wrap). -/
def wrapCoord (dims : List Nat) (c : List Int) : Bool :=
  dims.length == c.length &&
    (dims.zip c).all (fun p => -(p.1 : Int) ≤ p.2 && p.2 < (p.1 : Int))

theorem wrapCoord_iff {dims : List Nat} {c : List Int} :
    wrapCoord dims c = true ↔
      List.Forall₂ (fun (d : Nat) (x : Int) => -(d : Int) ≤ x ∧ x < (d : Int))
        dims c := by
  rw [List.forall₂_iff_zip]
  unfold wrapCoord
  rw [Bool.and_eq_true, beq_iff_eq, List.all_eq_true]
  simp only [Bool.and_eq_true, decide_eq_true_eq]
  constructor
  · rintro ⟨hlen, hall⟩
    refine ⟨hlen, ?_⟩
    intro a b hab
    exact hall (a, b) hab
  · rintro ⟨hlen, hall⟩
    refine ⟨hlen, ?_⟩
    rintro ⟨a, b⟩ hab
    exact hall hab

theorem wrapCoord_cons_iff {d : Nat} {dims : List Nat} {x : Int} {c : List Int} :
    wrapCoord (d :: dims) (x :: c) = true ↔
      (-(d : Int) ≤ x ∧ x < (d : Int)) ∧ wrapCoord dims c = true := by
  rw [wrapCoord_iff, wrapCoord_iff, List.forall₂_cons]

theorem access_none_of_not_wrap (c : List Int) : ∀ (dims : List Nat) (g : Grid Cell),
    HasShape g dims → c.length = dims.length → wrapCoord dims c = false →
    get_val g c = none ∧ (∀ v, set_val g c v = none) ∧
      (∀ v, update_pos g c v = none) := by
  induction c with
  | nil =>
    intro dims g hs hlen hw
    have hdn : dims = [] := by
      cases dims with
      | nil => rfl
      | cons d rest => simp at hlen
    subst hdn
    exact absurd hw (by decide)
  | cons i c' ih =>
    intro dims g hs hlen hw
    cases dims with
    | nil => simp at hlen
    | cons d dims' =>
      have hlen' : c'.length = dims'.length := by simpa using hlen
      by_cases hin : -(d : Int) ≤ i ∧ i < (d : Int)
      · have hw' : wrapCoord dims' c' = false := by
          cases hb : wrapCoord dims' c' with
          | false => rfl
          | true =>
            have : wrapCoord (d :: dims') (i :: c') = true :=
              wrapCoord_cons_iff.2 ⟨hin, hb⟩
            rw [this] at hw
            exact absurd hw (by decide)
        cases dims' with
        | nil =>
          have hc'nil : c' = [] := List.length_eq_zero.1 (by simpa using hlen')
          subst hc'nil
          exact absurd hw' (by decide)
        | cons d2 ds2 =>
          obtain ⟨gs, rfl, hgl, hall⟩ := hasShape_cons (by simp) hs
          cases c' with
          | nil => simp at hlen'
          | cons j rest =>
            obtain ⟨sub, hpg⟩ : ∃ sub, pyGet gs i = some sub := by
              apply pyGet_some_of_wrap
              · rw [hgl]; exact hin.1
              · rw [hgl]; exact hin.2
            obtain ⟨jx, _, hjget⟩ := pyGet_some_inv hpg
            have hsubshape := hall sub (get?_mem_of_some hjget)
            have ihr := ih (d2 :: ds2) sub hsubshape hlen' hw'
            refine ⟨?_, fun v => ?_, fun v => ?_⟩
            · show get_val (Grid.nest gs) (i :: j :: rest) = none
              simp only [get_val, hpg, Option.some_bind]
              exact ihr.1
            · show set_val (Grid.nest gs) (i :: j :: rest) v = none
              simp only [set_val, Option.bind_eq_bind, hpg, Option.some_bind,
                ihr.2.1 v, Option.none_bind]
            · show update_pos (Grid.nest gs) (i :: j :: rest) v = none
              simp only [update_pos, Option.bind_eq_bind, hpg, Option.some_bind,
                ihr.2.2 v, Option.none_bind]
      · cases dims' with
        | nil =>
          obtain ⟨l, rfl, hll⟩ := hasShape_single hs
          have hc'nil : c' = [] := List.length_eq_zero.1 (by simpa using hlen')
          subst hc'nil
          have hpn : pyGet l i = none := pyGet_none_of_not_wrap (by rw [hll]; exact hin)
          have hpsn : ∀ v : Cell, pySet l i v = none := fun v =>
            pySet_none_of_not_wrap v (by rw [hll]; exact hin)
          refine ⟨?_, fun v => ?_, fun v => ?_⟩
          · show get_val (Grid.vec l) [i] = none
            simpa [get_val] using hpn
          · show set_val (Grid.vec l) [i] v = none
            simp only [set_val, hpsn v, Option.map_none']
          · show update_pos (Grid.vec l) [i] v = none
            simp only [update_pos, Option.bind_eq_bind, hpn, Option.none_bind]
        | cons d2 ds2 =>
          obtain ⟨gs, rfl, hgl, hall⟩ := hasShape_cons (by simp) hs
          cases c' with
          | nil => simp at hlen'
          | cons j rest =>
            have hpn : pyGet gs i = none := pyGet_none_of_not_wrap (by rw [hgl]; exact hin)
            refine ⟨?_, fun v => ?_, fun v => ?_⟩
            · show get_val (Grid.nest gs) (i :: j :: rest) = none
              simp only [get_val, hpn, Option.none_bind]
            · show set_val (Grid.nest gs) (i :: j :: rest) v = none
              simp only [set_val, Option.bind_eq_bind, hpn, Option.none_bind]
            · show update_pos (Grid.nest gs) (i :: j :: rest) v = none
              simp only [update_pos, Option.bind_eq_bind, hpn, Option.none_bind]

theorem get_val_some_of_wrap (c : List Int) : ∀ (dims : List Nat) (g : Grid Cell),
    HasShape g dims → wrapCoord dims c = true →
    ∃ a, get_val g c = some a := by
  induction c with
  | nil =>
    intro dims g hs hw
    have hdn : dims = [] := by
      cases dims with
      | nil => rfl
      | cons d rest => simp [wrapCoord] at hw
    subst hdn
    cases hs
  | cons i c' ih =>
    intro dims g hs hw
    cases dims with
    | nil => simp [wrapCoord] at hw
    | cons d dims' =>
      obtain ⟨hin, hw'⟩ := wrapCoord_cons_iff.1 hw
      cases dims' with
      | nil =>
        obtain ⟨l, rfl, hll⟩ := hasShape_single hs
        have hc'nil : c' = [] := by
          cases c' with
          | nil => rfl
          | cons x xs => simp [wrapCoord] at hw'
        subst hc'nil
        obtain ⟨a, ha⟩ := pyGet_some_of_wrap (l := l) (i := i)
          (by rw [hll]; exact hin.1) (by rw [hll]; exact hin.2)
        exact ⟨a, ha⟩
      | cons d2 ds2 =>
        obtain ⟨gs, rfl, hgl, hall⟩ := hasShape_cons (by simp) hs
        cases c' with
        | nil => simp [wrapCoord] at hw'
        | cons j rest =>
          obtain ⟨sub, hpg⟩ := pyGet_some_of_wrap (l := gs) (i := i)
            (by rw [hgl]; exact hin.1) (by rw [hgl]; exact hin.2)
          obtain ⟨jx, _, hjget⟩ := pyGet_some_inv hpg
          obtain ⟨a, ha⟩ := ih (d2 :: ds2) sub (hall sub (get?_mem_of_some hjget)) hw'
          refine ⟨a, ?_⟩
          show get_val (Grid.nest gs) (i :: j :: rest) = some a
          simp only [get_val, hpg, Option.some_bind]
          exact ha

/-! ## The claims -/

/-- C1: for a nonempty dimensions list and a duplicate-free list of in-range
mine coordinates, `new_game_nd` succeeds and produces a board in which every
mine coordinate holds the mine marker and every other valid coordinate holds
`Cell.num` of the exact number of mines among its geometric neighbours
(distinct coordinates differing by at most 1 on every axis, necessarily
in range since every mine is). -/
theorem C1_board_values (dims : List Nat) (bombs : List (List Int))
    (hne : dims ≠ []) (hnd : bombs.Nodup)
    (hv : ∀ b ∈ bombs, validCoord dims b = true) :
    ∃ g, new_game_nd dims bombs = some g ∧
      ∀ c, validCoord dims c = true →
        get_val g.board c = some (if c ∈ bombs then Cell.mine
          else Cell.num (mineNeighborCount bombs c)) := by
  obtain ⟨g, hg, _, _, _, _, _, hbc, _, _⟩ := new_game_nd_spec dims bombs hne hnd hv
  exact ⟨g, hg, hbc⟩

theorem C1_board_values_witness :
    (([2, 4] : List Nat) ≠ [] ∧
      ([[0, 0], [1, 0], [1, 1]] : List (List Int)).Nodup ∧
      (∀ b ∈ ([[0, 0], [1, 0], [1, 1]] : List (List Int)),
        validCoord [2, 4] b = true)) ∧
    ∃ g, new_game_nd [2, 4] [[0, 0], [1, 0], [1, 1]] = some g ∧
      ∀ c, validCoord [2, 4] c = true →
        get_val g.board c = some (if c ∈ ([[0, 0], [1, 0], [1, 1]] : List (List Int))
          then Cell.mine
          else Cell.num (mineNeighborCount [[0, 0], [1, 0], [1, 1]] c)) :=
  ⟨⟨by decide, by decide, by decide⟩,
    C1_board_values [2, 4] [[0, 0], [1, 0], [1, 1]] (by decide) (by decide) (by decide)⟩

/-- C2: on the same inputs, `squares_left` right after construction is the
product of the dimensions minus the number of mines, and after any sequence of
`dig_nd` calls (each with arbitrary fuel and coordinates) it equals the number
of non-mine cells whose hidden entry is still true. -/
theorem C2_squares_left_invariant (dims : List Nat) (bombs : List (List Int))
    (hne : dims ≠ []) (hnd : bombs.Nodup)
    (hv : ∀ b ∈ bombs, validCoord dims b = true) :
    ∃ g, new_game_nd dims bombs = some g ∧
      g.squares_left = (listProd dims : Int) - bombs.length ∧
      ∀ digs : List (Nat × List Int),
        (runDigs g digs).squares_left =
          (hiddenNonMine (runDigs g digs).board (runDigs g digs).hidden : Int) := by
  obtain ⟨g, hg, _, hsb, hsh, _, hsq, _, _, hinv⟩ :=
    new_game_nd_spec dims bombs hne hnd hv
  exact ⟨g, hg, hsq, fun digs => runDigs_invariant digs g dims hsb hsh hinv⟩

theorem C2_squares_left_invariant_witness :
    (([2, 4] : List Nat) ≠ [] ∧
      ([[0, 0], [1, 0], [1, 1]] : List (List Int)).Nodup ∧
      (∀ b ∈ ([[0, 0], [1, 0], [1, 1]] : List (List Int)),
        validCoord [2, 4] b = true)) ∧
    ∃ g, new_game_nd [2, 4] [[0, 0], [1, 0], [1, 1]] = some g ∧
      g.squares_left = (listProd [2, 4] : Int) -
        ([[0, 0], [1, 0], [1, 1]] : List (List Int)).length ∧
      ∀ digs : List (Nat × List Int),
        (runDigs g digs).squares_left =
          (hiddenNonMine (runDigs g digs).board (runDigs g digs).hidden : Int) :=
  ⟨⟨by decide, by decide, by decide⟩,
    C2_squares_left_invariant [2, 4] [[0, 0], [1, 0], [1, 1]]
      (by decide) (by decide) (by decide)⟩

/-- C3: for an in-range coordinate, `get_neighors_nd` returns exactly the
coordinates obtained by independently shifting every axis by -1, 0 or +1 and
keeping only results inside the bounds; the result contains the coordinate
itself, has no duplicates, and every member is in range. -/
theorem C3_neighbors (d0 : Nat) (ds : List Nat) (l0 : Int) (ls : List Int)
    (hv : validCoord (d0 :: ds) (l0 :: ls) = true) :
    (∀ c, c ∈ get_neighors_nd (d0 :: ds) (l0 :: ls) ↔
      List.Forall₂ (fun pr x =>
        (x = pr.2 - 1 ∨ x = pr.2 ∨ x = pr.2 + 1) ∧ 0 ≤ x ∧ x < (pr.1 : Int))
        ((d0 :: ds).zip (l0 :: ls)) c) ∧
    (l0 :: ls) ∈ get_neighors_nd (d0 :: ds) (l0 :: ls) ∧
    (get_neighors_nd (d0 :: ds) (l0 :: ls)).Nodup ∧
    (∀ c ∈ get_neighors_nd (d0 :: ds) (l0 :: ls),
      validCoord (d0 :: ds) c = true) := by
  have hvf := validCoord_iff.1 hv
  refine ⟨fun c => mem_get_neighors_nd.trans (forall₂_candR_iff_spec hvf),
    mem_get_neighors_nd.2 (forall₂_candR_self hvf.length_eq),
    nodup_get_neighors_nd, fun c hc => ?_⟩
  exact validCoord_iff.2 (forall₂_candR_valid hvf (mem_get_neighors_nd.1 hc))

theorem C3_neighbors_witness :
    validCoord [2, 4] [0, 3] = true ∧
    ((∀ c, c ∈ get_neighors_nd [2, 4] [0, 3] ↔
      List.Forall₂ (fun pr x =>
        (x = pr.2 - 1 ∨ x = pr.2 ∨ x = pr.2 + 1) ∧ 0 ≤ x ∧ x < (pr.1 : Int))
        (([2, 4] : List Nat).zip [0, 3]) c) ∧
    ([0, 3] : List Int) ∈ get_neighors_nd [2, 4] [0, 3] ∧
    (get_neighors_nd [2, 4] [0, 3]).Nodup ∧
    (∀ c ∈ get_neighors_nd [2, 4] [0, 3], validCoord [2, 4] c = true)) :=
  ⟨by decide, C3_neighbors 2 [4] 0 [3] (by decide)⟩

/-- Counterexample to the claimed end-to-end scenario: on the freshly
constructed game `new_game((2,4), [(0,0),(1,0),(1,1)])`, `dig((0,3))` does not
end in victory with `squares_left = 0` (fuel 9 exceeds the 8-cell board, so
the cascade has fully terminated). -/
theorem C4_claim_false :
    ¬((new_game_nd [2, 4] [[0, 0], [1, 0], [1, 1]]).map
        (fun g => ((dig_nd 9 g [0, 3]).2, (dig_nd 9 g [0, 3]).1.state,
          (dig_nd 9 g [0, 3]).1.squares_left)) =
      some (4, GameState.victory, 0)) := by decide

/-- C4 (amended): the fresh game `new_game((2,4), [(0,0),(1,0),(1,1)])` has
state ongoing and `squares_left = 5`, and `dig((0,3))` on it returns 4, after
which the state is still ongoing and `squares_left = 1`: the cell (0,1) with
value 3 is not reached by the cascade, so the game is not yet won. (The spec's
scenario describes the doctest, which pre-reveals (0,1) before digging.) -/
theorem C4_dig_scenario :
    (new_game_nd [2, 4] [[0, 0], [1, 0], [1, 1]]).map
        (fun g => (g.state, g.squares_left, (dig_nd 9 g [0, 3]).2,
          (dig_nd 9 g [0, 3]).1.state, (dig_nd 9 g [0, 3]).1.squares_left)) =
      some (GameState.ongoing, 5, 4, GameState.ongoing, 1) := by decide

/-- C5: digging a still-hidden mine cell of an ongoing game reveals that cell,
sets the state to defeat and returns 1 immediately — no recursion into
neighbours and no change to `squares_left` — for every board and fuel. -/
theorem C5_dig_mine (fuel : Nat) (game : Game) (c : List Int)
    (hst : game.state = GameState.ongoing)
    (hh : get_val game.hidden c = some true)
    (hb : get_val game.board c = some Cell.mine) :
    ∃ h', set_val game.hidden c false = some h' ∧
      dig_nd (fuel + 1) game c =
        ({ game with hidden := h', state := GameState.defeat }, 1) ∧
      (dig_nd (fuel + 1) game c).1.squares_left = game.squares_left := by
  obtain ⟨h', hset⟩ := set_val_isSome_of_get hh false
  have heq := dig_nd_mine fuel hst hh hb hset
  exact ⟨h', hset, heq, by rw [heq]⟩

def gameA : Game :=
  { dimensions := [2], board := Grid.vec [Cell.mine, Cell.num 1],
    hidden := Grid.vec [true, true], state := GameState.ongoing,
    squares_left := 1 }

theorem C5_dig_mine_witness :
    (gameA.state = GameState.ongoing ∧
      get_val gameA.hidden [0] = some true ∧
      get_val gameA.board [0] = some Cell.mine) ∧
    ∃ h', set_val gameA.hidden [0] false = some h' ∧
      dig_nd 1 gameA [0] =
        ({ gameA with hidden := h', state := GameState.defeat }, 1) ∧
      (dig_nd 1 gameA [0]).1.squares_left = gameA.squares_left :=
  ⟨⟨rfl, rfl, rfl⟩, C5_dig_mine 0 gameA [0] rfl rfl rfl⟩

/-- C6: when a dig of an ongoing game reveals a hidden non-mine cell and the
game had exactly one unrevealed non-mine cell left (`squares_left = 1`), the
state becomes victory, `squares_left` becomes 0 and the call returns 1
immediately, without recursing into neighbours. -/
theorem C6_dig_last (fuel : Nat) (game : Game) (c : List Int) (k : Nat)
    (hst : game.state = GameState.ongoing)
    (hh : get_val game.hidden c = some true)
    (hb : get_val game.board c = some (Cell.num k))
    (hsq : game.squares_left = 1) :
    ∃ h', set_val game.hidden c false = some h' ∧
      dig_nd (fuel + 1) game c =
        ({ game with
            hidden := h'
            squares_left := 0
            state := GameState.victory }, 1) := by
  obtain ⟨h', hset⟩ := set_val_isSome_of_get hh false
  exact ⟨h', hset, dig_nd_last fuel hst hh hb hsq hset⟩

theorem C6_dig_last_witness :
    (gameA.state = GameState.ongoing ∧
      get_val gameA.hidden [1] = some true ∧
      get_val gameA.board [1] = some (Cell.num 1) ∧
      gameA.squares_left = 1) ∧
    ∃ h', set_val gameA.hidden [1] false = some h' ∧
      dig_nd 1 gameA [1] =
        ({ gameA with
            hidden := h'
            squares_left := 0
            state := GameState.victory }, 1) :=
  ⟨⟨rfl, rfl, rfl, rfl⟩, C6_dig_last 0 gameA [1] 1 rfl rfl rfl rfl⟩

/-- C7: a dig on a game that is no longer ongoing, or on a cell already
revealed (`hidden` entry false), returns 0 and leaves the game record — all
of dimensions, board, hidden, state and squares_left — unchanged. -/
theorem C7_dig_noop (fuel : Nat) (game : Game) (c : List Int)
    (h : game.state ≠ GameState.ongoing ∨ get_val game.hidden c = some false) :
    dig_nd fuel game c = (game, 0) := by
  cases h with
  | inl h =>
    refine dig_nd_gameover fuel ?_
    cases hs : game.state with
    | ongoing => exact absurd hs h
    | defeat => exact Or.inl rfl
    | victory => exact Or.inr rfl
  | inr h =>
    refine dig_nd_not_hidden fuel ?_
    rw [h]
    rfl

def gameB : Game :=
  { dimensions := [2], board := Grid.vec [Cell.mine, Cell.num 1],
    hidden := Grid.vec [true, true], state := GameState.defeat,
    squares_left := 1 }

theorem C7_dig_noop_witness :
    (gameB.state ≠ GameState.ongoing ∨
      get_val gameB.hidden [0] = some false) ∧
    dig_nd 3 gameB [0] = (gameB, 0) :=
  ⟨Or.inl (by decide), C7_dig_noop 3 gameB [0] (Or.inl (by decide))⟩

def gameC8 : Game :=
  { dimensions := [2], board := Grid.vec [Cell.mine, Cell.num 2],
    hidden := Grid.vec [true, true], state := GameState.ongoing,
    squares_left := 0 }

/-- Counterexample to the claimed construction-time validation: the duplicated
mine coordinate list [[0],[0]] is accepted and a game is returned (with the
duplicate double-counted: the neighbour cell reads 2 and squares_left is 0),
instead of being rejected with a validation error. -/
theorem C8_claim_false : new_game_nd [2] [[0], [0]] = some gameC8 := by rfl

/-- C8 (amended): `new_game_nd` performs no input validation.  Whenever it
returns a game — in particular for a duplicated mine coordinate, as the
counterexample shows — the state is ongoing and `squares_left` is the cell
count minus the raw length of the bombs list, duplicates counted; malformed
coordinates can only surface later as an `IndexError`-style failure (`none`),
never as a construction-time validation error. -/
theorem C8_no_validation (dims : List Nat) (bombs : List (List Int)) (g : Game)
    (h : new_game_nd dims bombs = some g) :
    g.state = GameState.ongoing ∧
    g.squares_left = (listProd dims : Int) - bombs.length :=
  new_game_nd_fields dims bombs g h

theorem C8_no_validation_witness :
    new_game_nd [2] [[0], [0]] = some gameC8 ∧
    (gameC8.state = GameState.ongoing ∧
      gameC8.squares_left = (listProd [2] : Int) -
        ([[0], [0]] : List (List Int)).length) :=
  ⟨rfl, C8_no_validation [2] [[0], [0]] gameC8 rfl⟩

/-- Counterexample to the claimed bounds failure: the out-of-range coordinate
[-1] does not fail — it silently wraps around Python-style and reads the last
cell of the row. -/
theorem C9_claim_false :
    get_val (Grid.vec [Cell.num 0, Cell.num 7]) [-1] = some (Cell.num 7) := rfl

/-- C9 (amended): grid accesses follow Python indexing exactly.  On a
well-shaped grid, a coordinate of the right length makes `get_val`, `set_val`
and `update_pos` all fail with `none` (modelling `IndexError`) precisely when
some index lies outside `[-dim_i, dim_i - 1]` — whether too large or below
`-dim_i`; when every index is inside that range the access returns a value
instead, with a negative index silently wrapping around to the other end of
its axis (see the counterexample) rather than failing. -/
theorem C9_bounds (dims : List Nat) (g : Grid Cell) (c : List Int)
    (hs : HasShape g dims) (hlen : c.length = dims.length) :
    (wrapCoord dims c = false →
      get_val g c = none ∧ (∀ v, set_val g c v = none) ∧
        (∀ v, update_pos g c v = none)) ∧
    (wrapCoord dims c = true →
      (∃ a, get_val g c = some a) ∧
        (∀ v, ∃ g', set_val g c v = some g')) := by
  refine ⟨access_none_of_not_wrap c dims g hs hlen, fun hw => ?_⟩
  obtain ⟨a, ha⟩ := get_val_some_of_wrap c dims g hs hw
  exact ⟨⟨a, ha⟩, fun v => set_val_isSome_of_get ha v⟩

theorem C9_bounds_witness :
    ((HasShape (Grid.vec [Cell.num 0, Cell.num 7]) [2] ∧
        ([-3] : List Int).length = ([2] : List Nat).length) ∧
      ((wrapCoord [2] [-3] = false →
          get_val (Grid.vec [Cell.num 0, Cell.num 7]) [-3] = none ∧
            (∀ v, set_val (Grid.vec [Cell.num 0, Cell.num 7]) [-3] v = none) ∧
            (∀ v, update_pos (Grid.vec [Cell.num 0, Cell.num 7]) [-3] v = none)) ∧
        (wrapCoord [2] [-3] = true →
          (∃ a, get_val (Grid.vec [Cell.num 0, Cell.num 7]) [-3] = some a) ∧
            (∀ v, ∃ g',
              set_val (Grid.vec [Cell.num 0, Cell.num 7]) [-3] v = some g')))) ∧
    ((HasShape (Grid.vec [Cell.num 0, Cell.num 7]) [2] ∧
        ([-1] : List Int).length = ([2] : List Nat).length) ∧
      ((wrapCoord [2] [-1] = false →
          get_val (Grid.vec [Cell.num 0, Cell.num 7]) [-1] = none ∧
            (∀ v, set_val (Grid.vec [Cell.num 0, Cell.num 7]) [-1] v = none) ∧
            (∀ v, update_pos (Grid.vec [Cell.num 0, Cell.num 7]) [-1] v = none)) ∧
        (wrapCoord [2] [-1] = true →
          (∃ a, get_val (Grid.vec [Cell.num 0, Cell.num 7]) [-1] = some a) ∧
            (∀ v, ∃ g',
              set_val (Grid.vec [Cell.num 0, Cell.num 7]) [-1] v = some g')))) :=
  ⟨⟨⟨HasShape.vec _ _ rfl, rfl⟩,
      C9_bounds [2] (Grid.vec [Cell.num 0, Cell.num 7]) [-3]
        (HasShape.vec _ _ rfl) rfl⟩,
    ⟨⟨HasShape.vec _ _ rfl, rfl⟩,
      C9_bounds [2] (Grid.vec [Cell.num 0, Cell.num 7]) [-1]
        (HasShape.vec _ _ rfl) rfl⟩⟩

/-- C10: `render_nd` returns a grid of the same shape as the board, and at
every valid coordinate the rendered symbol is `"_"` exactly when `xray` is
false and the cell is hidden (so with `xray = true` the symbol `"_"` never
appears); otherwise the symbol is `"."` for a mine cell, a single space for a
cell counting 0, and the decimal digit string of the count for any other
cell. -/
theorem C10_render (dims : List Nat) (board : Grid Cell) (hidden : Grid Bool)
    (xray : Bool) (hb : HasShape board dims) (hh : HasShape hidden dims) :
    HasShape (render_nd dims board hidden xray) dims ∧
    ∀ c, validCoord dims c = true → ∀ cell, get_val board c = some cell →
      ∃ s, get_val (render_nd dims board hidden xray) c = some s ∧
        (s = "_" ↔ xray = false ∧ get_val hidden c = some true) ∧
        (¬(xray = false ∧ get_val hidden c = some true) →
          s = if cell = Cell.mine then "."
            else if cell = Cell.num 0 then " " else cellStr cell) := by
  obtain ⟨hshape, hchar⟩ := render_nd_spec dims board hidden xray hb hh
  refine ⟨hshape, fun c hc cell hcell => ⟨_, hchar c hc cell hcell, ?_, ?_⟩⟩
  · constructor
    · intro hs
      by_contra hcond
      rw [if_neg hcond] at hs
      by_cases h0 : cell = Cell.num 0
      · rw [if_pos h0] at hs
        exact absurd hs (by decide)
      · rw [if_neg h0] at hs
        exact cellStr_ne_underscore cell hs
    · intro hcond
      rw [if_pos hcond]
  · intro hcond
    rw [if_neg hcond]
    cases cell with
    | mine => rfl
    | num n => rfl

theorem C10_render_witness :
    (HasShape (Grid.vec [Cell.mine, Cell.num 0, Cell.num 3]) [3] ∧
      HasShape (Grid.vec [true, false, false]) [3]) ∧
    (HasShape (render_nd [3] (Grid.vec [Cell.mine, Cell.num 0, Cell.num 3])
        (Grid.vec [true, false, false]) false) [3] ∧
    ∀ c, validCoord [3] c = true → ∀ cell,
      get_val (Grid.vec [Cell.mine, Cell.num 0, Cell.num 3]) c = some cell →
      ∃ s, get_val (render_nd [3] (Grid.vec [Cell.mine, Cell.num 0, Cell.num 3])
          (Grid.vec [true, false, false]) false) c = some s ∧
        (s = "_" ↔ false = false ∧
          get_val (Grid.vec [true, false, false]) c = some true) ∧
        (¬(false = false ∧
            get_val (Grid.vec [true, false, false]) c = some true) →
          s = if cell = Cell.mine then "."
            else if cell = Cell.num 0 then " " else cellStr cell)) :=
  ⟨⟨HasShape.vec _ _ rfl, HasShape.vec _ _ rfl⟩,
    C10_render [3] (Grid.vec [Cell.mine, Cell.num 0, Cell.num 3])
      (Grid.vec [true, false, false]) false
      (HasShape.vec _ _ rfl) (HasShape.vec _ _ rfl)⟩
